import Mathlib

/-!
Verification of the governed work-packet orchestration kernel
(`governed_platform.governance`): a shallow embedding of the status
normalizer, the hash-chained activity log, the deterministic commit ledger
(DCL), the canonical JSON serializer and the lifecycle engine, with theorems
about the spec's claims C1..C10.

String handling note: Python string primitives (`strip`, `lower`, `replace`)
are re-implemented character-level over `List Char` (ASCII range, which covers
every string the governance code compares), because Lean's built-in `String`
functions do not reduce in the kernel.
-/

namespace PyStr

/-- ASCII lower-casing of one character (`str.lower` restricted to ASCII). -/
def asciiLower (c : Char) : Char :=
  if 'A' ≤ c ∧ c ≤ 'Z' then Char.ofNat (c.toNat + 32) else c

/-- ASCII upper-casing of one character (`str.upper` restricted to ASCII). -/
def asciiUpper (c : Char) : Char :=
  if 'a' ≤ c ∧ c ≤ 'z' then Char.ofNat (c.toNat - 32) else c

/-- The whitespace characters stripped by `str.strip` (ASCII subset). -/
def isSpaceChar (c : Char) : Bool :=
  c = ' ' ∨ c = '\t' ∨ c = '\n' ∨ c = '\r'

/-- `str.strip()` over the character list. -/
def stripChars (cs : List Char) : List Char :=
  ((cs.dropWhile isSpaceChar).reverse.dropWhile isSpaceChar).reverse

/-- `str.strip()`. -/
def strip (s : String) : String := String.mk (stripChars s.data)

/-- `str.lower()` (ASCII). -/
def lower (s : String) : String := String.mk (s.data.map asciiLower)

/-- `str.upper()` (ASCII). -/
def upper (s : String) : String := String.mk (s.data.map asciiUpper)

/-- `str.replace(old, new)` for single-character patterns. -/
def replaceChar (s : String) (old new : Char) : String :=
  String.mk (s.data.map (fun c => if c = old then new else c))

/-- `str.isdigit()` (ASCII digits; empty string is not a digit string). -/
def isDigits (s : String) : Bool :=
  s.data ≠ [] ∧ s.data.all (fun c => '0' ≤ c ∧ c ≤ '9')

end PyStr

namespace GovStatus

/-- The `_RUNTIME_ALIASES` table of `governance/status.py`. -/
def runtimeAliases : List (String × String) :=
  [("pending", "pending"),
   ("draft", "pending"),
   ("preflight", "preflight"),
   ("in_progress", "in_progress"),
   ("inprogress", "in_progress"),
   ("stalled", "stalled"),
   ("review", "review"),
   ("escalated", "escalated"),
   ("done", "done"),
   ("complete", "done"),
   ("completed", "done"),
   ("failed", "failed"),
   ("fail", "failed"),
   ("blocked", "blocked")]

/-- The `_PACKET_TO_RUNTIME` table of `governance/status.py`. -/
def packetToRuntime : List (String × String) :=
  [("PENDING", "pending"),
   ("PREFLIGHT", "preflight"),
   ("IN_PROGRESS", "in_progress"),
   ("STALLED", "stalled"),
   ("REVIEW", "review"),
   ("ESCALATED", "escalated"),
   ("DONE", "done"),
   ("FAILED", "failed"),
   ("BLOCKED", "blocked"),
   ("DRAFT", "pending")]

/-- First-match association lookup: the Lean counterpart of a Python `dict`
lookup on the alias tables (whose keys are distinct). -/
def alookup : List (String × String) → String → Option String
  | [], _ => none
  | (k, v) :: rest, key => if key = k then some v else alookup rest key

/-- `_normalize_token` of `governance/status.py`:
`str(value or "").strip().lower()` then `-` and space replaced by `_`
(a `None` input is modelled as `none`, which Python turns into `""`). -/
def normalizeToken (value : Option String) : String :=
  PyStr.replaceChar (PyStr.replaceChar (PyStr.lower (PyStr.strip (value.getD ""))) '-' '_') ' ' '_'

/-- `normalize_runtime_status` of `governance/status.py` with `strict=False`. -/
def normalize_runtime_status (value : Option String) (default : String := "pending") : String :=
  match alookup runtimeAliases (normalizeToken value) with
  | some v => v
  | none =>
    match alookup packetToRuntime (PyStr.upper (normalizeToken value)) with
    | some v => v
    | none => default

/-- The five-element status set named by the spec's claim. -/
def fiveStatusSet : List String :=
  ["pending", "in_progress", "done", "failed", "blocked"]

/-- The nine-element codomain actually used by `status.py`
(`RUNTIME_STATUS_VALUES`). -/
def nineStatusSet : List String :=
  ["pending", "preflight", "in_progress", "stalled", "review",
   "escalated", "done", "failed", "blocked"]

end GovStatus

namespace LogChain

/-- Decimal digit character. -/
def digitChar (n : Nat) : Char := Char.ofNat (48 + n)

/-- Decimal digits of `n` (structural fuel so the kernel can evaluate it). -/
def natDigitsAux : Nat → Nat → List Char
  | 0, _ => []
  | fuel + 1, n => if n = 0 then [] else natDigitsAux fuel (n / 10) ++ [digitChar (n % 10)]

/-- Decimal representation of a natural number, as Python `repr` prints it. -/
def natRepr (n : Nat) : String :=
  if n = 0 then "0" else String.mk (natDigitsAux (n + 1) n)

/-- Zero-padding to width 8, as Python `f"{i:08d}"` for non-negative `i`. -/
def zpad8 (n : Nat) : String :=
  let s := natRepr n
  String.mk (List.replicate (8 - s.data.length) '0' ++ s.data)

/-- The `event_id` string `f"evt-{index:08d}"` of `log_integrity.py`. -/
def evtId (n : Nat) : String := "evt-" ++ zpad8 n

/-- The `_MODE_ALIASES` table of `log_integrity.py`. -/
def logModeAliases : List (String × String) :=
  [("plain", "plain"),
   ("off", "plain"),
   ("disabled", "plain"),
   ("none", "plain"),
   ("hash", "hash_chain"),
   ("hash_chain", "hash_chain"),
   ("hash-chain", "hash_chain"),
   ("tamper_evident", "hash_chain"),
   ("tamper-evident", "hash_chain")]

/-- `normalize_log_mode` of `log_integrity.py` with `strict=False`:
`str(value or "").strip().lower().replace(" ", "_")`, then the alias table,
falling back to `"plain"`. -/
def normalize_log_mode (value : Option String) : String :=
  let token := PyStr.replaceChar (PyStr.lower (PyStr.strip (value.getD ""))) ' ' '_'
  match GovStatus.alookup logModeAliases token with
  | some v => v
  | none => "plain"

/-- The payload hashed by `compute_entry_hash`: the seven fields
`{packet_id, event, agent, timestamp, notes, event_id, prev_hash}` read with
`entry.get(...)` (absent keys become `None` = `none`).  The hash codomain `H`
abstracts the SHA-256 hex digest of the canonical serialization; tamper
theorems assume the hash function is injective (collision resistance). -/
structure Payload (H : Type) where
  packet_id : Option String
  event : Option String
  agent : Option String
  timestamp : Option String
  notes : Option String
  event_id : Option String
  prev : Option H
deriving DecidableEq

/-- One activity-log entry.  The three chain keys (`event_id`, `prev_hash`,
`hash`) are `some` exactly when the key is present in the dict. -/
structure Entry (H : Type) where
  packet_id : Option String
  event : Option String
  agent : Option String
  timestamp : Option String
  notes : Option String
  chainEventId : Option String
  chainPrev : Option H
  chainHash : Option H
deriving DecidableEq

/-- `_hash_payload` of `log_integrity.py`. -/
def payloadOf {H : Type} (e : Entry H) : Payload H :=
  ⟨e.packet_id, e.event, e.agent, e.timestamp, e.notes, e.chainEventId, e.chainPrev⟩

/-- `"event_id" in entry or "prev_hash" in entry or "hash" in entry`. -/
def hasAnyChain {H : Type} (e : Entry H) : Bool :=
  e.chainEventId.isSome || e.chainPrev.isSome || e.chainHash.isSome

/-- All three chain keys present. -/
def hasAllChain {H : Type} (e : Entry H) : Bool :=
  e.chainEventId.isSome && e.chainPrev.isSome && e.chainHash.isSome

/-- `build_log_entry` of `log_integrity.py`: the plain descriptive entry, plus
the chain fields (`event_id`, `prev_hash`, `hash`) when the normalized mode is
`hash_chain`.  `hashFn` abstracts `compute_entry_hash`. -/
def build_log_entry {H : Type} (hashFn : Payload H → H) (packet_id event : Option String)
    (agent notes : Option String) (timestamp : Option String) (mode : Option String)
    (previous : H) (hashIndex : Nat) : Entry H :=
  let base : Entry H := ⟨packet_id, event, agent, timestamp, notes, none, none, none⟩
  if normalize_log_mode mode = "hash_chain" then
    let eid := some (evtId hashIndex)
    { base with
      chainEventId := eid
      chainPrev := some previous
      chainHash := some (hashFn ⟨packet_id, event, agent, timestamp, notes, eid, some previous⟩) }
  else base

/-- The issue list produced by the scan loop of `verify_log_integrity`,
written as a direct recursion (the Python loop appends to `issues`; emitting
the per-entry issues in front of the recursive call yields the same final
list).  `idx` is the running entry index, `c` the count of hashed entries so
far, `last` the running `last_hash` (`empty` abstracts the initial `""`). -/
def verifyIssues {H : Type} [DecidableEq H] (empty : H) (hashFn : Payload H → H) :
    Nat → Nat → H → List (Entry H) → List String
  | _, _, _, [] => []
  | idx, c, last, e :: rest =>
    if hasAnyChain e && !hasAllChain e then
      ("log[" ++ natRepr idx ++ "] has partial hash-chain fields (requires event_id, prev_hash, hash)")
        :: verifyIssues empty hashFn (idx + 1) c last rest
    else if !hasAllChain e then
      verifyIssues empty hashFn (idx + 1) c last rest
    else
      let c' := c + 1
      let iss1 : List String :=
        if e.chainEventId = some (evtId c') then []
        else ["log[" ++ natRepr idx ++ "] event_id mismatch"]
      let iss2 : List String :=
        if e.chainPrev = some last then []
        else ["log[" ++ natRepr idx ++ "] prev_hash mismatch"]
      let iss3 : List String :=
        if e.chainHash = some (hashFn (payloadOf e)) then []
        else ["log[" ++ natRepr idx ++ "] hash mismatch"]
      let newLast := match e.chainHash with
        | some h => if h = empty then last else h
        | none => last
      iss1 ++ iss2 ++ iss3 ++ verifyIssues empty hashFn (idx + 1) c' newLast rest

/-- `verify_log_integrity` of `log_integrity.py`: `(ok, issues)`. -/
def verify_log_integrity {H : Type} [DecidableEq H] (empty : H) (hashFn : Payload H → H)
    (entries : List (Entry H)) : Bool × List String :=
  let iss := verifyIssues empty hashFn 0 0 empty entries
  (iss.isEmpty, iss)

/-- The verifier's acceptance condition, written as the spec describes it:
plain entries are skipped, a partial set of chain fields is fatal, and every
hashed entry must carry `event_id = evt-(count+1)` (zero-padded over hashed
entries only), `prev_hash` equal to the running last hash (`empty` before the
first), and `hash` equal to the recomputed payload hash. -/
def goodFrom {H : Type} [DecidableEq H] (empty : H) (hashFn : Payload H → H) :
    Nat → H → List (Entry H) → Bool
  | _, _, [] => true
  | c, last, e :: rest =>
    if hasAllChain e then
      decide (e.chainEventId = some (evtId (c + 1))) &&
      decide (e.chainPrev = some last) &&
      decide (e.chainHash = some (hashFn (payloadOf e))) &&
      goodFrom empty hashFn (c + 1)
        (match e.chainHash with
         | some h => if h = empty then last else h
         | none => last) rest
    else
      !hasAnyChain e && goodFrom empty hashFn c last rest

/-- `e'` equals `e` except in exactly one of the eight stored field values
(and genuinely differs from `e`). -/
def oneFieldChanged {H : Type} (e e' : Entry H) : Prop :=
  e' ≠ e ∧
    ((∃ x, e' = { e with packet_id := x }) ∨
     (∃ x, e' = { e with event := x }) ∨
     (∃ x, e' = { e with agent := x }) ∨
     (∃ x, e' = { e with timestamp := x }) ∨
     (∃ x, e' = { e with notes := x }) ∨
     (∃ x, e' = { e with chainEventId := x }) ∨
     (∃ x, e' = { e with chainPrev := x }) ∨
     (∃ x, e' = { e with chainHash := x }))

/-- Concrete hash codomain used to witness the tamper theorems: the free
algebra generated by the payload constructor, on which the "hash" is the
evident injection. -/
inductive MockH where
  | root : MockH
  | node (packet_id event agent timestamp notes event_id : Option String)
      (prevIsSome : Bool) (prev : MockH) : MockH
deriving DecidableEq

/-- The injective mock hash function on payloads (`none` prev encoded as
`(false, root)`, `some h` as `(true, h)`). -/
def mockHash (p : Payload MockH) : MockH :=
  match p.prev with
  | none => .node p.packet_id p.event p.agent p.timestamp p.notes p.event_id false .root
  | some h => .node p.packet_id p.event p.agent p.timestamp p.notes p.event_id true h

/-- A concrete hashed log entry (first entry of a hash-chained log), used to
witness the tamper theorem. -/
def exampleEntry : Entry MockH :=
  { packet_id := some "PKT-1"
    event := some "started"
    agent := some "alice"
    timestamp := some "2026-01-01T00:00:00"
    notes := none
    chainEventId := some (evtId 1)
    chainPrev := some MockH.root
    chainHash := some (mockHash
      ⟨some "PKT-1", some "started", some "alice", some "2026-01-01T00:00:00",
       none, some (evtId 1), some MockH.root⟩) }

/-- `exampleEntry` with its `notes` field value changed. -/
def exampleTampered : Entry MockH :=
  { exampleEntry with notes := some "tampered" }

end LogChain

namespace Dcl

/-- Zero-padding of a non-negative sequence number to width 6
(`f"{seq:06d}"`). -/
def zpad6 (n : Nat) : String :=
  let s := LogChain.natRepr n
  String.mk (List.replicate (6 - s.data.length) '0' ++ s.data)

/-- `HEAD` record: `{seq, commit_hash}`.  `Hsh` abstracts the SHA-256 hex
digest strings; the `GENESIS` sentinel is a distinguished element of it. -/
structure HeadRec (Hsh : Type) where
  seq : Int
  commit_hash : Hsh
deriving DecidableEq

/-- A DCL commit without its self-hash (`commit` minus `commit_hash`), in the
field order built by `write_commit` of `dcl.py`.  `E` abstracts the action
envelope dict, `D` the diff dict, `S` the runtime packet snapshot. -/
structure CommitBase (E D Hsh : Type) where
  commit_id : String
  packet_id : String
  seq : Int
  prev_commit_hash : Hsh
  action_hash : Hsh
  pre_state_hash : Hsh
  post_state_hash : Hsh
  constitution_hash : String
  diff : D
  created_at : String
  action_envelope : E
deriving DecidableEq

/-- A stored DCL commit. -/
structure Commit (E D Hsh : Type) where
  commit_id : String
  packet_id : String
  seq : Int
  prev_commit_hash : Hsh
  action_hash : Hsh
  pre_state_hash : Hsh
  post_state_hash : Hsh
  constitution_hash : String
  diff : D
  created_at : String
  action_envelope : E
  commit_hash : Hsh
deriving DecidableEq

/-- `base = deepcopy(commit); base.pop("commit_hash")` of
`verify_packet_detailed`. -/
def baseOf {E D Hsh : Type} (c : Commit E D Hsh) : CommitBase E D Hsh :=
  ⟨c.commit_id, c.packet_id, c.seq, c.prev_commit_hash, c.action_hash,
   c.pre_state_hash, c.post_state_hash, c.constitution_hash, c.diff,
   c.created_at, c.action_envelope⟩

/-- The commit built from a base plus its hash. -/
def withCommitHash {E D Hsh : Type} (b : CommitBase E D Hsh) (h : Hsh) : Commit E D Hsh :=
  ⟨b.commit_id, b.packet_id, b.seq, b.prev_commit_hash, b.action_hash,
   b.pre_state_hash, b.post_state_hash, b.constitution_hash, b.diff,
   b.created_at, b.action_envelope, h⟩

/-- The hashing model: `genesis` is the `"GENESIS"` sentinel, and the three
hash functions abstract `sha256_hex` of the canonical JSON of an action
envelope, a commit base, and a runtime packet snapshot respectively. -/
structure HashModel (E D Hsh S : Type) where
  genesis : Hsh
  hashEnv : E → Hsh
  hashBase : CommitBase E D Hsh → Hsh
  hashState : S → Hsh

/-- The issues contributed by one commit in the scan loop of
`verify_packet_detailed` (`dcl.py`), in source order: duplicate `seq`,
`seq`/ordinal mismatch, `action_hash` recomputation, `commit_hash`
recomputation, and the chain link to the previous commit (`GENESIS` for the
first). -/
def perCommitIssues {E D Hsh S : Type} [DecidableEq Hsh] (M : HashModel E D Hsh S)
    (pid : String) (idx : Nat) (prev : Option (Commit E D Hsh)) (seen : List Int)
    (c : Commit E D Hsh) : List String :=
  (if c.seq ∈ seen then ["duplicate seq value at " ++ pid] else []) ++
  (if c.seq = (idx : Int) + 1 then []
   else ["seq mismatch at " ++ pid ++ "#" ++ LogChain.natRepr idx]) ++
  (if M.hashEnv c.action_envelope = c.action_hash then []
   else ["action_hash mismatch at " ++ pid]) ++
  (if M.hashBase (baseOf c) = c.commit_hash then []
   else ["commit_hash mismatch at " ++ pid]) ++
  (match prev with
   | none =>
     if c.prev_commit_hash = M.genesis then []
     else ["genesis prev_commit_hash mismatch at " ++ pid]
   | some p =>
     (if c.prev_commit_hash = p.commit_hash then []
      else ["prev_commit_hash mismatch at " ++ pid]) ++
     (if c.pre_state_hash = p.post_state_hash then []
      else ["pre/post state chain mismatch at " ++ pid]))

/-- The scan loop of `verify_packet_detailed` over the name-sorted commit
listing (`_list_commits`). -/
def loopIssues {E D Hsh S : Type} [DecidableEq Hsh] (M : HashModel E D Hsh S)
    (pid : String) : Nat → Option (Commit E D Hsh) → List Int →
    List (Commit E D Hsh) → List String
  | _, _, _, [] => []
  | idx, prev, seen, c :: rest =>
    perCommitIssues M pid idx prev seen c ++
      loopIssues M pid (idx + 1) (some c) (c.seq :: seen) rest

/-- The issue list of `verify_packet_detailed` (`dcl.py`): the empty listing
is an issue only when a runtime packet state is supplied; otherwise the scan
loop runs, then `HEAD` is compared with the last commit, then (optionally) the
runtime snapshot hash with the last `post_state_hash`. -/
def verifyPacketIssues {E D Hsh S : Type} [DecidableEq Hsh] (M : HashModel E D Hsh S)
    (pid : String) (commits : List (Commit E D Hsh)) (head : HeadRec Hsh)
    (statePacket : Option S) : List String :=
  match commits.getLast? with
  | none =>
    match statePacket with
    | some _ => ["missing DCL commits for packet with runtime state: " ++ pid]
    | none => []
  | some last =>
    loopIssues M pid 0 none [] commits ++
    (if head.seq = last.seq then []
     else ["HEAD seq mismatch at " ++ pid]) ++
    (if head.commit_hash = last.commit_hash then []
     else ["HEAD hash mismatch at " ++ pid]) ++
    (match statePacket with
     | none => []
     | some sp =>
       if M.hashState sp = last.post_state_hash then []
       else ["runtime state mismatch at " ++ pid])

/-- `verify_packet` of `dcl.py`: `(ok, issues)` with no runtime snapshot. -/
def verify_packet {E D Hsh S : Type} [DecidableEq Hsh] (M : HashModel E D Hsh S)
    (pid : String) (commits : List (Commit E D Hsh)) (head : HeadRec Hsh) :
    Bool × List String :=
  let iss := verifyPacketIssues M pid commits head none
  (iss.isEmpty, iss)

/-- `write_commit` of `dcl.py` as a pure transform of the per-packet ledger:
load HEAD (default `{0, GENESIS}` is the stored value), build the commit with
`seq = prev_seq + 1` and `prev_commit_hash = prev or GENESIS`, hash the base,
journal + write the commit file + advance HEAD + clear the journal. -/
structure Ledger (E D Hsh : Type) where
  head : HeadRec Hsh
  commits : List (Commit E D Hsh)
deriving DecidableEq

def write_commit {E D Hsh S : Type} [DecidableEq Hsh] (M : HashModel E D Hsh S)
    (store : Ledger E D Hsh) (pid : String) (env : E) (preState postState : S)
    (diffFn : S → S → D) (constitutionHash : String) (now : String) :
    Commit E D Hsh × Ledger E D Hsh :=
  let prevHash := store.head.commit_hash
  let seq := store.head.seq + 1
  let base : CommitBase E D Hsh :=
    { commit_id := "CMT-" ++ pid ++ "-" ++ zpad6 seq.toNat
      packet_id := pid
      seq := seq
      prev_commit_hash := if seq > 1 then prevHash else M.genesis
      action_hash := M.hashEnv env
      pre_state_hash := M.hashState preState
      post_state_hash := M.hashState postState
      constitution_hash := constitutionHash
      diff := diffFn preState postState
      created_at := now
      action_envelope := env }
  let commit := withCommitHash base (M.hashBase base)
  (commit, { head := ⟨seq, commit.commit_hash⟩, commits := store.commits ++ [commit] })

/-- The journal file `{seq, commit_hash}` (`stage` is irrelevant to
recovery). -/
structure Journal where
  seq : Int
  commit_hash : String
deriving DecidableEq

/-- The on-disk state of one packet's DCL directory as `recover_packet_journal`
sees it: `HEAD`, the stored commit files as `(seq, commit_hash-of-content)`
pairs, and the transient journal. -/
structure PacketStore where
  headSeq : Int
  headHash : String
  commitFiles : List (Int × String)
  journal : Option Journal
deriving DecidableEq

/-- The report of `recover_packet_journal`. -/
structure RecoveryReport where
  recovered : Bool
  status : String
deriving DecidableEq

/-- Association lookup of a commit file by sequence number (the commit file
named `f"{seq:06d}.json"` exists iff the seq has an entry). -/
def findCommitFile (files : List (Int × String)) (seq : Int) : Option String :=
  match files with
  | [] => none
  | (s, h) :: rest => if seq = s then some h else findCommitFile rest seq

/-- `recover_packet_journal` of `dcl.py`: no journal means nothing to do;
when the journal has `seq > 0`, a non-empty `commit_hash` and the commit file
exists, HEAD is overwritten with the journal values and the journal deleted;
every other shape is reported `blocked` and the store left unchanged. -/
def recover_packet_journal (st : PacketStore) : RecoveryReport × PacketStore :=
  match st.journal with
  | none => (⟨false, "none"⟩, st)
  | some j =>
    if j.seq > 0 ∧ j.commit_hash ≠ "" ∧ (findCommitFile st.commitFiles j.seq).isSome then
      (⟨true, "recovered"⟩,
       { st with headSeq := j.seq, headHash := j.commit_hash, journal := none })
    else
      (⟨false, "blocked"⟩, st)

/-- Concrete hash codomain witnessing the DCL theorems: the free algebra over
commit bases (with string envelopes and unit diffs/snapshots), on which
`hashBase` is the evident injection. -/
inductive MockD where
  | gen : MockD
  | env (e : String) : MockD
  | state : MockD
  | node (commit_id packet_id : String) (seq : Int)
      (prevh acth preh posth : MockD) (consth created envl : String) : MockD
deriving DecidableEq

/-- The mock hash model (injective on commit bases). -/
def mockModel : HashModel String Unit MockD Unit :=
  { genesis := .gen
    hashEnv := fun e => .env e
    hashBase := fun b =>
      .node b.commit_id b.packet_id b.seq b.prev_commit_hash b.action_hash
        b.pre_state_hash b.post_state_hash b.constitution_hash b.created_at
        b.action_envelope
    hashState := fun _ => .state }

/-- A concrete valid single-commit ledger (used by the C5 counterexample). -/
def exampleBase1 : CommitBase String Unit MockD :=
  { commit_id := "CMT-PKT-1-000001"
    packet_id := "PKT-1"
    seq := 1
    prev_commit_hash := .gen
    action_hash := mockModel.hashEnv "claim"
    pre_state_hash := .state
    post_state_hash := .state
    constitution_hash := ""
    diff := ()
    created_at := "t1"
    action_envelope := "claim" }

def exampleCommit1 : Commit String Unit MockD :=
  withCommitHash exampleBase1 (mockModel.hashBase exampleBase1)

def exampleHead1 : HeadRec MockD := ⟨1, exampleCommit1.commit_hash⟩

/-- A concrete valid two-commit ledger (used by the C5 witness). -/
def exampleBase2 : CommitBase String Unit MockD :=
  { commit_id := "CMT-PKT-1-000002"
    packet_id := "PKT-1"
    seq := 2
    prev_commit_hash := exampleCommit1.commit_hash
    action_hash := mockModel.hashEnv "done"
    pre_state_hash := exampleCommit1.post_state_hash
    post_state_hash := .state
    constitution_hash := ""
    diff := ()
    created_at := "t2"
    action_envelope := "done" }

def exampleCommit2 : Commit String Unit MockD :=
  withCommitHash exampleBase2 (mockModel.hashBase exampleBase2)

def exampleHead2 : HeadRec MockD := ⟨2, exampleCommit2.commit_hash⟩

/-- The C6 counterexample store: journal `{seq 1, hash "X"}` while the stored
commit file content carries `commit_hash "Y"` and HEAD matches the stored
commit. -/
def exampleJournalStore : PacketStore :=
  { headSeq := 1
    headHash := "Y"
    commitFiles := [(1, "Y")]
    journal := some ⟨1, "X"⟩ }

end Dcl

namespace Engine

/-- Generic first-match association lookup (Python `dict.get`; the engine's
dict keys are unique). -/
def plookup {α : Type} : List (String × α) → String → Option α
  | [], _ => none
  | (k, v) :: rest, key => if key = k then some v else plookup rest key

/-- In-place update of an existing key (Python `d[k] = v` for a present key;
the engine always checks presence before updating). -/
def updatePacket {α : Type} : List (String × α) → String → α → List (String × α)
  | [], _, _ => []
  | (k, p) :: rest, key, v =>
    if k = key then (k, v) :: rest else (k, p) :: updatePacket rest key v

/-- Upsert (Python `d[k] = v`: replace if present, else append). -/
def upsert {α : Type} (l : List (String × α)) (key : String) (v : α) : List (String × α) :=
  if (plookup l key).isSome then updatePacket l key v else l ++ [(key, v)]

/-- Join a list of strings with a separator (Python `sep.join`). -/
def joinSep (sep : String) : List String → String
  | [] => ""
  | x :: rest => rest.foldl (fun acc y => acc ++ sep ++ y) x

/-- Zero-padded width-4 counter (`f"h-{n:04d}"` uses this). -/
def zpad4 (n : Nat) : String :=
  let s := LogChain.natRepr n
  String.mk (List.replicate (4 - s.data.length) '0' ++ s.data)

/-- Lexicographic byte-wise comparison of strings (Python `<=` on `str`,
restricted to the code points the governance code compares). -/
def charsLe : List Char → List Char → Bool
  | [], _ => true
  | _ :: _, [] => false
  | a :: as, b :: bs => if a < b then true else if b < a then false else charsLe as bs

/-- Insertion sort by `charsLe` (Python `sorted` on strings, which is a stable
sort; for strings stability is invisible). -/
def insertSorted (s : String) : List String → List String
  | [] => [s]
  | x :: rest => if charsLe s.data x.data then s :: x :: rest else x :: insertSorted s rest

def sortStrings : List String → List String
  | [] => []
  | x :: rest => insertSorted x (sortStrings rest)

/-- First-occurrence deduplication (Python `set` + `sorted` is modelled as
dedup followed by sort). -/
def dedupGo (seen : List String) : List String → List String
  | [] => []
  | x :: rest => if x ∈ seen then dedupGo seen rest else x :: dedupGo (x :: seen) rest

def dedup (l : List String) : List String := dedupGo [] l

/-- A handover record (`GovernanceEngine.handover`). -/
structure Handover where
  handover_id : String
  from_agent : String
  to_agent : Option String
  timestamp : String
  reason : String
  progress_notes : String
  files_modified : List String
  remaining_work : List String
  active : Bool
  resumed_by : Option String
  resumed_at : Option String
deriving DecidableEq

/-- The runtime state of one packet (`state["packets"][pid]`); `none` models
both an absent key and a `None` value, as the engine reads every field with
`.get`. -/
structure Packet where
  status : Option String
  assigned_to : Option String
  started_at : Option String
  completed_at : Option String
  notes : Option String
  handovers : List Handover
deriving DecidableEq

/-- An `area_closeouts` record (`GovernanceEngine.closeout_l2`). -/
structure Closeout where
  status : String
  area_title : Option String
  closed_by : String
  closed_at : String
  drift_assessment_path : String
  notes : Option String
  integrity_method : String
deriving DecidableEq

/-- The runtime state mutated by the engine (the fields the engine touches). -/
structure State where
  packets : List (String × Packet)
  log : List (LogChain.Entry String)
  area_closeouts : List (String × Closeout)
  log_integrity_mode : Option String
deriving DecidableEq

/-- A WBS packet definition (the fields the engine reads). -/
structure PacketDef where
  id : String
  area_id : Option String
  required_capabilities : List String
deriving DecidableEq

/-- A WBS work area. -/
structure AreaDef where
  id : String
  title : Option String
deriving DecidableEq

/-- The WBS definition (the fields the engine reads). -/
structure Definition where
  packets : List PacketDef
  work_areas : List AreaDef
  dependencies : List (String × List String)
deriving DecidableEq

/-- `TransitionRequest` of `supervisor.py`. -/
structure TransitionRequest where
  packet_id : String
  action : String
  agent : Option String
  notes : Option String
  required_capabilities : List String
deriving DecidableEq

/-- The engine's ambient effect handles: the injected supervisor's `approve`,
the abstract `compute_entry_hash`, `datetime.now().isoformat()`, and the
filesystem read used by `closeout_l2` (`none` = the file does not exist). -/
structure Ctx where
  approve : TransitionRequest → Bool × String
  hashFn : LogChain.Payload String → String
  now : String
  readFile : String → Option String

/-- A DCL write request.  `GovernanceEngine` performs none: no transition in
`engine.py` calls `dcl.write_commit` (only the DCL module's own callers do),
so every operation below returns an empty `dclWrites` list. -/
structure DclWriteReq where
  packet_id : String
  action : String
deriving DecidableEq

/-- The result of a mutating engine operation: the `(bool, message)` pair the
engine returns, the persisted state after the call (unchanged when the
operation fails, since every failure path returns before `save`), and the DCL
commits written during the call. -/
structure EngineResult where
  ok : Bool
  msg : String
  state : State
  dclWrites : List DclWriteReq
deriving DecidableEq

/-- `normalize_runtime_status(packet.get("status"))` for a packet looked up
with `state.get("packets", {}).get(pid, {})`. -/
def packetStatusIn (st : State) (pid : String) : String :=
  GovStatus.normalize_runtime_status ((plookup st.packets pid).bind Packet.status)

/-- `GovernanceEngine._deps_met`. -/
def depsMetGo (st : State) : List String → Bool × String
  | [] => (true, "")
  | d :: rest =>
    if packetStatusIn st d ≠ "done" then (false, d) else depsMetGo st rest

def deps_met (defn : Definition) (st : State) (pid : String) : Bool × String :=
  depsMetGo st ((plookup defn.dependencies pid).getD [])

/-- `GovernanceEngine._active_handover`: the latest handover with a truthy
`active` flag. -/
def active_handover (p : Packet) : Option Handover :=
  p.handovers.reverse.find? (fun h => h.active)

/-- `GovernanceEngine._log`: append one activity event, chaining it when the
state's normalized log integrity mode is `hash_chain`. -/
def appendLog (ctx : Ctx) (st : State) (pid : String) (event : String)
    (agent notes : Option String) : State :=
  let mode := LogChain.normalize_log_mode st.log_integrity_mode
  let hashed := st.log.filter (fun e => (e.chainHash.getD "") ≠ "")
  let prev : String :=
    if mode = "hash_chain" then
      match hashed.getLast? with
      | some e => e.chainHash.getD ""
      | none => ""
    else ""
  let hashIndex : Nat :=
    if mode = "hash_chain" ∧ hashed ≠ [] then hashed.length + 1 else 1
  { st with
    log := st.log ++
      [LogChain.build_log_entry ctx.hashFn (some pid) (some event) agent notes
        (some ctx.now) (some mode) prev hashIndex] }

/-- `GovernanceEngine._approve`. -/
def approveFor (ctx : Ctx) (action pid : String) (agent notes : Option String)
    (caps : List String) : Bool × String :=
  ctx.approve ⟨pid, action, agent, notes, caps⟩

/-- `[p for p, dep_list in deps.items() if packet_id in dep_list]`: the direct
dependents of a packet, in declaration order. -/
def dependents (defn : Definition) (pid : String) : List String :=
  (defn.dependencies.filter (fun kv => pid ∈ kv.2)).map Prod.fst

/-- `GovernanceEngine.claim` (the body under the state lock). -/
def claim (ctx : Ctx) (defn : Definition) (st : State) (pid agent : String) :
    EngineResult :=
  let pdef := defn.packets.find? (fun p => p.id = pid)
  let caps := (pdef.map PacketDef.required_capabilities).getD []
  let ap := approveFor ctx "claim" pid (some agent) none caps
  if !ap.1 then ⟨false, ap.2, st, []⟩
  else
    match plookup st.packets pid with
    | none => ⟨false, "Packet " ++ pid ++ " not found", st, []⟩
    | some pkt =>
      let cur := GovStatus.normalize_runtime_status pkt.status
      if cur ≠ "pending" then
        ⟨false, "Packet " ++ pid ++ " is " ++ cur ++ ", not pending", st, []⟩
      else
        let dm := deps_met defn st pid
        if !dm.1 then ⟨false, "Blocked by " ++ dm.2 ++ " (not done yet)", st, []⟩
        else
          let pkt' := { pkt with
            status := some "in_progress"
            assigned_to := some agent
            started_at := some ctx.now }
          let st1 := { st with packets := updatePacket st.packets pid pkt' }
          let st2 := appendLog ctx st1 pid "started" (some agent)
            (some ("Claimed by " ++ agent))
          let st3 := if ap.2 ≠ "" ∧ ap.2 ≠ "approved" then
              appendLog ctx st2 pid "capability_warning" (some agent) (some ap.2)
            else st2
          let msg := pid ++ " claimed by " ++ agent ++
            (if ap.2 ≠ "" ∧ ap.2 ≠ "approved" then " (" ++ ap.2 ++ ")" else "")
          ⟨true, msg, st3, []⟩

/-- `GovernanceEngine.done`. -/
def done (ctx : Ctx) (st : State) (pid agent : String) (notes : String) :
    EngineResult :=
  let ap := approveFor ctx "done" pid (some agent) (some notes) []
  if !ap.1 then ⟨false, ap.2, st, []⟩
  else
    match plookup st.packets pid with
    | none => ⟨false, "Packet " ++ pid ++ " not found", st, []⟩
    | some pkt =>
      let cur := GovStatus.normalize_runtime_status pkt.status
      if cur ≠ "in_progress" then
        ⟨false, "Packet " ++ pid ++ " is " ++ cur ++ ", not in_progress", st, []⟩
      else if (active_handover pkt).isSome then
        ⟨false, "Packet " ++ pid ++ " has active handover; resume before done", st, []⟩
      else
        let pkt' := { pkt with
          status := some "done"
          completed_at := some ctx.now
          notes := some notes }
        let st1 := { st with packets := updatePacket st.packets pid pkt' }
        let st2 := appendLog ctx st1 pid "completed" (some agent) (some notes)
        ⟨true, pid ++ " marked done", st2, []⟩

/-- `GovernanceEngine.note`. -/
def note (ctx : Ctx) (st : State) (pid agent notes : String) : EngineResult :=
  let ap := approveFor ctx "note" pid (some agent) (some notes) []
  if !ap.1 then ⟨false, ap.2, st, []⟩
  else
    match plookup st.packets pid with
    | none => ⟨false, "Packet " ++ pid ++ " not found", st, []⟩
    | some pkt =>
      let pkt' := { pkt with notes := some notes }
      let st1 := { st with packets := updatePacket st.packets pid pkt' }
      let st2 := appendLog ctx st1 pid "noted" (some agent) (some notes)
      ⟨true, pid ++ " notes updated", st2, []⟩

/-- The cascade loop of `GovernanceEngine.fail` (`while to_block:`), with an
explicit fuel for totality — the Python loop can run unboundedly on
ill-formed inputs whose dependency ids are missing from the state; `none`
models fuel exhaustion and never occurs under the well-formedness hypotheses
of the theorems below. -/
def cascadeGo (ctx : Ctx) (defn : Definition) (origin : String) :
    Nat → State → List String → List String → Option (State × List String)
  | 0, _, _, _ => none
  | _ + 1, st, [], acc => some (st, acc)
  | fuel + 1, st, pid :: rest, acc =>
    match plookup st.packets pid with
    | some cur =>
      if GovStatus.normalize_runtime_status cur.status ∈ ["pending", "in_progress"] then
        let st1 := { st with
          packets := updatePacket st.packets pid { cur with status := some "blocked" } }
        let st2 := appendLog ctx st1 pid "blocked" none (some ("Blocked by " ++ origin))
        cascadeGo ctx defn origin fuel st2 (rest ++ dependents defn pid) (acc ++ [pid])
      else cascadeGo ctx defn origin fuel st rest acc
    | none =>
      -- `state.get("packets", {}).get(pid, {})` yields a fresh dict whose
      -- default status normalizes to "pending": the event is logged and the
      -- traversal continues, but no packet entry is written.
      let st2 := appendLog ctx st pid "blocked" none (some ("Blocked by " ++ origin))
      cascadeGo ctx defn origin fuel st2 (rest ++ dependents defn pid) (acc ++ [pid])

/-- `GovernanceEngine.fail` (with the cascade fuel made explicit). -/
def fail (ctx : Ctx) (defn : Definition) (st : State) (pid agent : String)
    (reason : String) (fuel : Nat) : Option EngineResult :=
  let ap := approveFor ctx "fail" pid (some agent) (some reason) []
  if !ap.1 then some ⟨false, ap.2, st, []⟩
  else
    match plookup st.packets pid with
    | none => some ⟨false, "Packet " ++ pid ++ " not found", st, []⟩
    | some pkt =>
      let cur := GovStatus.normalize_runtime_status pkt.status
      if ¬(cur = "pending" ∨ cur = "in_progress") then
        some ⟨false, "Packet " ++ pid ++ " is " ++ cur ++ ", cannot fail", st, []⟩
      else if (active_handover pkt).isSome then
        some ⟨false, "Packet " ++ pid ++ " has active handover; resume before fail", st, []⟩
      else
        let pkt' := { pkt with
          status := some "failed"
          completed_at := some ctx.now
          notes := some reason }
        let st1 := { st with packets := updatePacket st.packets pid pkt' }
        let st2 := appendLog ctx st1 pid "failed" (some agent) (some reason)
        match cascadeGo ctx defn pid fuel st2 (dependents defn pid) [] with
        | none => none
        | some (st3, blocked) =>
          let suffix := if blocked ≠ [] then "; blocked: " ++ joinSep ", " blocked else ""
          some ⟨true, pid ++ " failed" ++ suffix, st3, []⟩

/-- `GovernanceEngine.reset` (no supervisor call in the source). -/
def reset (ctx : Ctx) (st : State) (pid : String) : EngineResult :=
  match plookup st.packets pid with
  | none => ⟨false, "Packet " ++ pid ++ " not found", st, []⟩
  | some pkt =>
    let cur := GovStatus.normalize_runtime_status pkt.status
    if cur ≠ "in_progress" then
      ⟨false, "Packet " ++ pid ++ " is " ++ cur ++ ", not in_progress", st, []⟩
    else
      let pkt' := { pkt with
        status := some "pending"
        assigned_to := none
        started_at := none }
      let st1 := { st with packets := updatePacket st.packets pid pkt' }
      let st2 := appendLog ctx st1 pid "reset" none none
      ⟨true, pid ++ " reset to pending", st2, []⟩

/-- `GovernanceEngine.handover`. -/
def handover (ctx : Ctx) (st : State) (pid agent reason : String)
    (progress_notes : String) (files_modified remaining_work : List String)
    (to_agent : Option String) : EngineResult :=
  let ap := approveFor ctx "handover" pid (some agent) (some reason) []
  if !ap.1 then ⟨false, ap.2, st, []⟩
  else
    match plookup st.packets pid with
    | none => ⟨false, "Packet " ++ pid ++ " not found", st, []⟩
    | some pkt =>
      let cur := GovStatus.normalize_runtime_status pkt.status
      if cur ≠ "in_progress" then
        ⟨false, "Packet " ++ pid ++ " is " ++ cur ++ ", not in_progress", st, []⟩
      else if (pkt.assigned_to.getD "") ≠ "" ∧ pkt.assigned_to ≠ some agent then
        ⟨false, "Packet " ++ pid ++ " owned by " ++ pkt.assigned_to.getD "" ++
          ", not " ++ agent, st, []⟩
      else if (active_handover pkt).isSome then
        ⟨false, "Packet " ++ pid ++ " already has an active handover", st, []⟩
      else
        let files := (files_modified.filter (fun s => PyStr.strip s ≠ "")).map PyStr.strip
        let remaining := (remaining_work.filter (fun s => PyStr.strip s ≠ "")).map PyStr.strip
        let hid := "h-" ++ zpad4 (pkt.handovers.length + 1)
        let tgt := PyStr.strip (to_agent.getD "")
        let record : Handover :=
          { handover_id := hid
            from_agent := agent
            to_agent := if tgt = "" then none else some tgt
            timestamp := ctx.now
            reason := reason
            progress_notes := progress_notes
            files_modified := files
            remaining_work := remaining
            active := true
            resumed_by := none
            resumed_at := none }
        let pkt' := { pkt with
          handovers := pkt.handovers ++ [record]
          assigned_to := none
          notes := if progress_notes ≠ "" then some progress_notes else pkt.notes }
        let summary := reason ++
          (if (to_agent.getD "") ≠ "" then " | to: " ++ to_agent.getD "" else "")
        let st1 := { st with packets := updatePacket st.packets pid pkt' }
        let st2 := appendLog ctx st1 pid "handover" (some agent) (some summary)
        ⟨true, pid ++ " handed over", st2, []⟩

/-- Mark the latest active handover resolved (the in-place mutation of the
dict returned by `_active_handover`). -/
def replaceFirstActive (f : Handover → Handover) : List Handover → List Handover
  | [] => []
  | h :: rest => if h.active then f h :: rest else h :: replaceFirstActive f rest

/-- `GovernanceEngine.resume`. -/
def resume (ctx : Ctx) (st : State) (pid agent : String) : EngineResult :=
  let ap := approveFor ctx "resume" pid (some agent) none []
  if !ap.1 then ⟨false, ap.2, st, []⟩
  else
    match plookup st.packets pid with
    | none => ⟨false, "Packet " ++ pid ++ " not found", st, []⟩
    | some pkt =>
      let cur := GovStatus.normalize_runtime_status pkt.status
      if cur ≠ "in_progress" then
        ⟨false, "Packet " ++ pid ++ " is " ++ cur ++ ", not in_progress", st, []⟩
      else
        match active_handover pkt with
        | none => ⟨false, "Packet " ++ pid ++ " has no active handover", st, []⟩
        | some ah =>
          if (ah.to_agent.getD "") ≠ "" ∧ ah.to_agent ≠ some agent then
            ⟨false, "Packet " ++ pid ++ " handover is targeted to " ++
              ah.to_agent.getD "", st, []⟩
          else
            let upd := fun (h : Handover) =>
              { h with active := false, resumed_by := some agent, resumed_at := some ctx.now }
            let pkt' := { pkt with
              handovers := (replaceFirstActive upd pkt.handovers.reverse).reverse
              assigned_to := some agent
              started_at := if pkt.started_at.getD "" = "" then some ctx.now else pkt.started_at }
            let st1 := { st with packets := updatePacket st.packets pid pkt' }
            let note := "Resumed handover from " ++
              (if ah.from_agent = "" then "-" else ah.from_agent)
            let st2 := appendLog ctx st1 pid "resumed" (some agent) (some note)
            ⟨true, pid ++ " resumed by " ++ agent, st2, []⟩

/-- `REQUIRED_DRIFT_SECTIONS` of `engine.py`. -/
def requiredDriftSections : List String :=
  ["## Scope Reviewed",
   "## Expected vs Delivered",
   "## Drift Assessment",
   "## Evidence Reviewed",
   "## Residual Risks",
   "## Immediate Next Actions"]

/-- Character-list prefix test. -/
def isPrefixChars : List Char → List Char → Bool
  | [], _ => true
  | _ :: _, [] => false
  | a :: as, b :: bs => a = b && isPrefixChars as bs

def containsAux (needle : List Char) : List Char → Bool
  | [] => isPrefixChars needle []
  | c :: rest => isPrefixChars needle (c :: rest) || containsAux needle rest

/-- Substring containment (`needle in haystack` on Python strings). -/
def containsSub (hay needle : String) : Bool :=
  containsAux needle.data hay.data

/-- `GovernanceEngine.closeout_l2`. -/
def closeout_l2 (ctx : Ctx) (defn : Definition) (st : State)
    (area_id agent assessment_path notes : String) : EngineResult :=
  let ap := approveFor ctx "closeout_l2" ("AREA-" ++ area_id) (some agent) (some notes) []
  if !ap.1 then ⟨false, ap.2, st, []⟩
  else
    let aid0 := PyStr.strip area_id
    let areaIds := defn.work_areas.map AreaDef.id
    let aid := if aid0 ∉ areaIds ∧ PyStr.isDigits aid0 then aid0 ++ ".0" else aid0
    match defn.work_areas.find? (fun a => a.id = aid) with
    | none => ⟨false, "Level-2 area not found: " ++ aid, st, []⟩
    | some area =>
      let areaPackets := defn.packets.filter (fun p => p.area_id = some aid)
      let incomplete := (areaPackets.filter
          (fun p => packetStatusIn st p.id ≠ "done")).map
        (fun p => p.id ++ "(" ++ packetStatusIn st p.id ++ ")")
      if incomplete ≠ [] then
        ⟨false, "Cannot close out " ++ aid ++ ": incomplete packets: " ++
          joinSep ", " incomplete, st, []⟩
      else
        match ctx.readFile (PyStr.strip assessment_path) with
        | none => ⟨false, "assessment file not found: " ++ assessment_path, st, []⟩
        | some text =>
          let textL := PyStr.lower text
          let missing := requiredDriftSections.filter
            (fun s => ¬ containsSub textL (PyStr.lower s))
          if missing ≠ [] then
            ⟨false, "Drift assessment validation failed: " ++
              joinSep "; " (missing.map (fun m => "missing required section: " ++ m)), st, []⟩
          else
            let record : Closeout :=
              { status := "closed"
                area_title := area.title
                closed_by := agent
                closed_at := ctx.now
                drift_assessment_path := assessment_path
                notes := if notes ≠ "" then some notes else none
                integrity_method := "review-based (no cryptographic hashing required)" }
            let st1 := { st with area_closeouts := upsert st.area_closeouts aid record }
            let st2 := appendLog ctx st1 ("AREA-" ++ aid) "area_closed" (some agent)
              (some ("Drift assessment: " ++ assessment_path ++
                (if notes ≠ "" then " | " ++ notes else "")))
            ⟨true, "Level-2 area " ++ aid ++ " closed", st2, []⟩

/-- An agent profile of the agent registry (`supervisor.py`). -/
structure AgentProfile where
  id : String
  capabilities : List String
deriving DecidableEq

/-- The agent registry (`supervisor.py`). -/
structure Registry where
  enforcement_mode : String
  capability_taxonomy : List String
  agents : List AgentProfile
deriving DecidableEq

/-- `normalize_enforcement_mode` of `supervisor.py`. -/
def normalize_enforcement_mode (m : Option String) : String :=
  let t := PyStr.lower (PyStr.strip (m.getD ""))
  if t = "disabled" ∨ t = "advisory" ∨ t = "strict" then t else "advisory"

/-- `default_agent_registry` of `supervisor.py`. -/
def default_agent_registry : Registry :=
  ⟨"disabled", ["code", "test", "docs", "review", "research", "deploy"], []⟩

/-- `check_agent_capabilities` of `supervisor.py` against a registry snapshot
(the profile map is a dict comprehension, so a duplicated agent id resolves to
the last profile). -/
def check_agent_capabilities (required : List String) (agent_id : String)
    (registry : Registry) : Bool × String × String :=
  let mode := normalize_enforcement_mode (some registry.enforcement_mode)
  let req := (required.map PyStr.strip).filter (fun c => c ≠ "")
  if mode = "disabled" ∨ req = [] then (true, "", mode)
  else
    let taxonomy := registry.capability_taxonomy.map PyStr.strip
    let unknown := req.filter (fun c => c ∉ taxonomy)
    let profile := registry.agents.reverse.find? (fun a => a.id = agent_id)
    let agentCaps := ((profile.map AgentProfile.capabilities).getD []).map PyStr.strip
    let missing := sortStrings (req.filter (fun c => c ∉ agentCaps))
    let issues :=
      (if profile.isNone then ["agent '" ++ agent_id ++ "' is not registered"] else []) ++
      (if missing ≠ [] then
        ["missing required capabilities: " ++ joinSep ", " missing] else []) ++
      (if unknown ≠ [] then
        ["unknown required capability tags: " ++ joinSep ", " (sortStrings (dedup unknown))]
       else [])
    if issues = [] then (true, "", mode)
    else if mode = "strict" then (false, "Capability check: " ++ joinSep "; " issues, mode)
    else (true, "Capability warning: " ++ joinSep "; " issues, mode)

/-- `DeterministicSupervisor.approve` with the default policy
(`require_notes_on_done`, `require_agent_for_mutation`) and a registry
snapshot. -/
def deterministic_approve (registry : Registry) (req : TransitionRequest) :
    Bool × String :=
  if (req.action = "claim" ∨ req.action = "done" ∨ req.action = "note" ∨
      req.action = "fail" ∨ req.action = "handover" ∨ req.action = "resume" ∨
      req.action = "closeout_l2") ∧ (req.agent.getD "") = "" then
    (false, "Supervisor denied: agent required")
  else if req.action = "done" ∧ PyStr.strip (req.notes.getD "") = "" then
    (false, "Supervisor denied: completion notes required for done")
  else if req.action = "claim" then
    let ck := check_agent_capabilities req.required_capabilities (req.agent.getD "") registry
    if !ck.1 then (false, ck.2.1)
    else if ck.2.1 ≠ "" then (true, ck.2.1)
    else (true, "approved")
  else (true, "approved")

/-- A concrete engine context: the deterministic supervisor over the default
registry, a constant entry hash (the log mode of the examples is `plain`, so
it is never consulted), a fixed clock, and an empty filesystem. -/
def exampleCtx : Ctx :=
  { approve := deterministic_approve default_agent_registry
    hashFn := fun _ => "h"
    now := "2026-03-01T00:00:00"
    readFile := fun _ => none }

/-- A packet state in progress, assigned to alice. -/
def packetInProgressAlice : Packet :=
  { status := some "in_progress"
    assigned_to := some "alice"
    started_at := some "2026-02-28T00:00:00"
    completed_at := none
    notes := none
    handovers := [] }

/-- The C1/C2 example state: one packet, in progress, owned by alice. -/
def exampleStateOwned : State :=
  { packets := [("PKT-1", packetInProgressAlice)]
    log := []
    area_closeouts := []
    log_integrity_mode := none }

/-- The C4 example: `Q` depends on `P`, `R` depends on `Q`; `P` in progress,
`Q` already done, `R` pending. -/
def exampleDefnC4 : Definition :=
  { packets := [⟨"P", none, []⟩, ⟨"Q", none, []⟩, ⟨"R", none, []⟩]
    work_areas := []
    dependencies := [("Q", ["P"]), ("R", ["Q"])] }

def exampleStateC4 : State :=
  { packets :=
      [("P", packetInProgressAlice),
       ("Q", ⟨some "done", none, none, none, none, []⟩),
       ("R", ⟨some "pending", none, none, none, none, []⟩)]
    log := []
    area_closeouts := []
    log_integrity_mode := none }

/-- The C3 witness fixture: a lone pending packet with no dependencies. -/
def exampleDefnC3 : Definition :=
  { packets := [⟨"A", none, []⟩]
    work_areas := []
    dependencies := [] }

def exampleStateC3 : State :=
  { packets := [("A", ⟨some "pending", none, none, none, none, []⟩)]
    log := []
    area_closeouts := []
    log_integrity_mode := none }

/-- A packet status counted as cascade-active (`{pending, in_progress}`). -/
def activeIn (s : State) (q : String) : Prop :=
  packetStatusIn s q = "pending" ∨ packetStatusIn s q = "in_progress"

instance (s : State) (q : String) : Decidable (activeIn s q) := by
  unfold activeIn
  infer_instance

/-- A dependency chain `x → … → q` (each next node a direct dependent of the
previous) whose nodes are all cascade-active in `s` and all avoid the lists
`A`.  `ChainAvoid defn s [] x q` is plain active reachability. -/
inductive ChainAvoid (defn : Definition) (s : State) : List String → String → String → Prop where
  | refl (A : List String) (q : String) (ha : activeIn s q) (hA : q ∉ A) :
      ChainAvoid defn s A q q
  | step (A : List String) (x y q : String) (ha : activeIn s x) (hA : x ∉ A)
      (hy : y ∈ dependents defn x) (hc : ChainAvoid defn s A y q) :
      ChainAvoid defn s A x q

/-- The chain characterization of the fail cascade, stated over the
pre-cascade state: `q` is reached exactly when some direct dependent of the
failing packet `origin` starts a dependency chain to `q` whose nodes are all
in `{pending, in_progress}` and distinct from `origin` (the failing packet is
`failed` by the time the cascade runs, so chains through it are pruned). -/
inductive CascadeChain (defn : Definition) (st : State) (origin : String) :
    String → String → Prop where
  | refl (q : String) (hq : q ≠ origin) (ha : activeIn st q) :
      CascadeChain defn st origin q q
  | step (x y q : String) (hx : x ≠ origin) (ha : activeIn st x)
      (hy : y ∈ dependents defn x) (hc : CascadeChain defn st origin y q) :
      CascadeChain defn st origin x q

def cascadeReach (defn : Definition) (st : State) (origin q : String) : Prop :=
  ∃ x, x ∈ dependents defn origin ∧ CascadeChain defn st origin x q

/-- The cascade termination measure contribution of a state: the summed
dependent-list lengths of its active packets. -/
def activeDepsSum (defn : Definition) (l : List (String × Packet)) : Nat :=
  (l.map fun kv =>
    if GovStatus.normalize_runtime_status kv.2.status = "pending" ∨
       GovStatus.normalize_runtime_status kv.2.status = "in_progress" then
      (dependents defn kv.1).length
    else 0).sum

/-- The observable projection of a log entry used by the cascade theorems. -/
def entryProj (e : LogChain.Entry String) :
    Option String × Option String × Option String × Option String :=
  (e.packet_id, e.event, e.agent, e.notes)

/-- The projection of the `blocked` event the cascade writes for `q`. -/
def blockedProj (origin q : String) :
    Option String × Option String × Option String × Option String :=
  (some q, some "blocked", none, some ("Blocked by " ++ origin))

end Engine

namespace CanonicalJson

/-- ASCII decimal digit test. -/
def isDigitC (c : Char) : Bool := 48 ≤ c.toNat && c.toNat ≤ 57

/-- Decimal digit character. -/
def digChar : Nat → Char
  | 0 => '0' | 1 => '1' | 2 => '2' | 3 => '3' | 4 => '4'
  | 5 => '5' | 6 => '6' | 7 => '7' | 8 => '8' | _ => '9'

/-- Decimal digits of `n`, most significant first (structural fuel). -/
def natDigs : Nat → Nat → List Char
  | 0, _ => []
  | fuel + 1, n => if n = 0 then [] else natDigs fuel (n / 10) ++ [digChar (n % 10)]

/-- Decimal representation of a natural number as Python prints it. -/
def natChars (n : Nat) : List Char := if n = 0 then ['0'] else natDigs (n + 1) n

/-- `str(int)`: optional minus sign and decimal digits. -/
def intReprChars : Int → List Char
  | .ofNat n => natChars n
  | .negSucc m => '-' :: natChars (m + 1)

/-- Lowercase hexadecimal digit, as Python `"%04x"` prints it. -/
def hexDig (n : Nat) : Char := if n < 10 then digChar n else
  match n with
  | 10 => 'a' | 11 => 'b' | 12 => 'c' | 13 => 'd' | 14 => 'e' | _ => 'f'

/-- `json.encoder.py_encode_basestring` (used with `ensure_ascii=False`): `\`
and `"` and control characters are escaped (`\b \t \n \f \r` shortcuts,
`\u00xx` otherwise); every other character passes through unchanged. -/
def escapeChar (c : Char) : List Char :=
  if c = '\\' then ['\\', '\\']
  else if c = '"' then ['\\', '"']
  else if c.toNat < 32 then
    if c.toNat = 8 then ['\\', 'b']
    else if c.toNat = 9 then ['\\', 't']
    else if c.toNat = 10 then ['\\', 'n']
    else if c.toNat = 12 then ['\\', 'f']
    else if c.toNat = 13 then ['\\', 'r']
    else ['\\', 'u', '0', '0', hexDig (c.toNat / 16), hexDig (c.toNat % 16)]
  else [c]

def escapeStr : List Char → List Char
  | [] => []
  | c :: cs => escapeChar c ++ escapeStr cs

/-- A JSON string literal: `"` + escaped text + `"`. -/
def emitStr (s : List Char) : List Char := '"' :: escapeStr s ++ ['"']

/-- Python values accepted by `_normalize`, over an abstract datetime type
`D`: `None`, `bool`, `int`, `str`, `datetime`, `Decimal` (carried with its
`str(value)` text), `list`, `tuple` and `dict` with string keys.  Floats are
outside the embedding (their shortest-roundtrip `repr` is not modelled). -/
inductive JVal (D : Type) where
  | jnull
  | jbool (b : Bool)
  | jint (n : Int)
  | jstr (s : List Char)
  | jdatetime (d : D)
  | jdec (s : List Char)
  | jarr (xs : List (JVal D))
  | jtup (xs : List (JVal D))
  | jobj (kvs : List (List Char × JVal D))

/-- Values produced by `_normalize`: JSON-serializable Python values. -/
inductive NVal where
  | nnull
  | nbool (b : Bool)
  | nint (n : Int)
  | nstr (s : List Char)
  | narr (xs : List NVal)
  | nobj (kvs : List (List Char × NVal))

mutual
/-- `_normalize` of `canonical_json.py`, for a datetime normalizer `dtNorm`
standing for `_normalize_datetime` (UTC conversion + `isoformat` with `Z`):
datetimes become their normalized strings, Decimals their `str(value)`,
tuples become lists, dict values are normalized recursively. -/
def _normalize {D : Type} (dtNorm : D → List Char) : JVal D → NVal
  | .jnull => .nnull
  | .jbool b => .nbool b
  | .jint n => .nint n
  | .jstr s => .nstr s
  | .jdatetime d => .nstr (dtNorm d)
  | .jdec s => .nstr s
  | .jarr xs => .narr (normList dtNorm xs)
  | .jtup xs => .narr (normList dtNorm xs)
  | .jobj kvs => .nobj (normPairs dtNorm kvs)
def normList {D : Type} (dtNorm : D → List Char) : List (JVal D) → List NVal
  | [] => []
  | x :: xs => _normalize dtNorm x :: normList dtNorm xs
def normPairs {D : Type} (dtNorm : D → List Char) :
    List (List Char × JVal D) → List (List Char × NVal)
  | [] => []
  | (k, v) :: kvs => (k, _normalize dtNorm v) :: normPairs dtNorm kvs
end

/-- Lexicographic code-point comparison, Python `str <=`. -/
def lexLe : List Char → List Char → Bool
  | [], _ => true
  | _ :: _, [] => false
  | a :: as, b :: bs =>
    if a.toNat < b.toNat then true
    else if b.toNat < a.toNat then false
    else lexLe as bs

def insertPair (p : List Char × NVal) :
    List (List Char × NVal) → List (List Char × NVal)
  | [] => [p]
  | q :: qs => if lexLe p.1 q.1 then p :: q :: qs else q :: insertPair p qs

/-- Stable sort of object members by key (`sort_keys=True`). -/
def sortPairs : List (List Char × NVal) → List (List Char × NVal)
  | [] => []
  | p :: ps => insertPair p (sortPairs ps)

mutual
/-- Recursively sort every object's members by key: `json.dumps` with
`sort_keys=True` emits exactly the emission of this deep-sorted value. -/
def sortNorm : NVal → NVal
  | .nnull => .nnull
  | .nbool b => .nbool b
  | .nint n => .nint n
  | .nstr s => .nstr s
  | .narr xs => .narr (sortNormList xs)
  | .nobj kvs => .nobj (sortPairs (sortNormPairs kvs))
def sortNormList : List NVal → List NVal
  | [] => []
  | x :: xs => sortNorm x :: sortNormList xs
def sortNormPairs : List (List Char × NVal) → List (List Char × NVal)
  | [] => []
  | (k, v) :: kvs => (k, sortNorm v) :: sortNormPairs kvs
end

mutual
/-- `json.dumps(..., ensure_ascii=False, separators=(",", ":"))` on an
already key-sorted value, as a character sequence. -/
def emitVal : NVal → List Char
  | .nnull => ['n', 'u', 'l', 'l']
  | .nbool true => ['t', 'r', 'u', 'e']
  | .nbool false => ['f', 'a', 'l', 's', 'e']
  | .nint n => intReprChars n
  | .nstr s => emitStr s
  | .narr [] => ['[', ']']
  | .narr (x :: xs) => '[' :: (emitVal x ++ emitArrTail xs) ++ [']']
  | .nobj [] => ['\x7b', '\x7d']
  | .nobj (p :: ps) => '\x7b' :: (emitMember p ++ emitObjTail ps) ++ ['\x7d']
def emitArrTail : List NVal → List Char
  | [] => []
  | x :: xs => ',' :: emitVal x ++ emitArrTail xs
def emitMember : List Char × NVal → List Char
  | (k, v) => emitStr k ++ ':' :: emitVal v
def emitObjTail : List (List Char × NVal) → List Char
  | [] => []
  | p :: ps => ',' :: emitMember p ++ emitObjTail ps
end

/-- `canonical_json_dumps`: normalize, then dump with sorted keys, compact
separators and `ensure_ascii=False` (the output character sequence). -/
def canonical_json_dumps {D : Type} (dtNorm : D → List Char) (x : JVal D) :
    List Char :=
  emitVal (sortNorm (_normalize dtNorm x))

/-- Numeric value of a digit string (proof helper). -/
def digitsVal (l : List Char) : Nat :=
  l.foldl (fun a c => a * 10 + (c.toNat - 48)) 0

/-- Numeric value of a lowercase hex digit (proof helper). -/
def hexVal (c : Char) : Nat := if c.toNat ≤ 57 then c.toNat - 48 else c.toNat - 87

/-- One-step inverse of `escapeChar` (proof helper). -/
def unesc : List Char → Option (Char × List Char)
  | '\\' :: 'u' :: '0' :: '0' :: h1 :: h2 :: rest =>
    some (Char.ofNat (hexVal h1 * 16 + hexVal h2), rest)
  | '\\' :: '\\' :: rest => some ('\\', rest)
  | '\\' :: '"' :: rest => some ('"', rest)
  | '\\' :: 'b' :: rest => some (Char.ofNat 8, rest)
  | '\\' :: 't' :: rest => some (Char.ofNat 9, rest)
  | '\\' :: 'n' :: rest => some (Char.ofNat 10, rest)
  | '\\' :: 'f' :: rest => some (Char.ofNat 12, rest)
  | '\\' :: 'r' :: rest => some (Char.ofNat 13, rest)
  | '\\' :: _ => none
  | c :: rest => some (c, rest)
  | [] => none

/-- `true` when the list does not start with a decimal digit: the contexts a
JSON number can be followed by. -/
def headOkB : List Char → Bool
  | [] => true
  | c :: _ => !(isDigitC c)

/-- Constructor tag of a serialized value (proof helper). -/
def ctag : NVal → Nat
  | .nnull => 0
  | .nbool _ => 1
  | .nint _ => 2
  | .nstr _ => 3
  | .narr _ => 4
  | .nobj _ => 5

/-- Tag determined by the first output character (proof helper). -/
def charTag (c : Char) : Nat :=
  if c = 'n' then 0
  else if c = 't' then 1
  else if c = 'f' then 1
  else if isDigitC c = true then 2
  else if c = '-' then 2
  else if c = '"' then 3
  else if c = '[' then 4
  else if c = Char.ofNat 123 then 5
  else 9

end CanonicalJson

-- ===================================================================
-- THEOREMS
-- ===================================================================

namespace GovStatus

theorem alookup_mem_snd {l : List (String × String)} {key v : String}
    (h : alookup l key = some v) : v ∈ l.map Prod.snd := by
  induction l with
  | nil => simp [alookup] at h
  | cons p rest ih =>
    obtain ⟨k, w⟩ := p
    simp only [alookup] at h
    split at h
    · simp only [Option.some.injEq] at h
      simp [← h]
    · simp only [List.map_cons]
      exact List.mem_cons_of_mem _ (ih h)

/-- C9 counterexample: `normalize_runtime_status` maps the canonical lowercase
input `"review"` to `"review"`, which is not in the five-element runtime status
set `{pending, in_progress, done, failed, blocked}` named by the claim. -/
theorem c9_counterexample :
    normalize_runtime_status (some "review") = "review" ∧
      "review" ∉ fiveStatusSet := by
  constructor
  · decide
  · decide

/-- C9 (amended): for every input value, `normalize_runtime_status` (with its
default `"pending"`) returns an element of the nine-element runtime status set
`{pending, preflight, in_progress, stalled, review, escalated, done, failed,
blocked}`; unknown inputs fall back to `"pending"`. -/
theorem c9_status_normalization_closure (v : Option String) :
    normalize_runtime_status v "pending" ∈ nineStatusSet := by
  unfold normalize_runtime_status
  cases h1 : alookup runtimeAliases (normalizeToken v) with
  | some x =>
    have hx := alookup_mem_snd h1
    show x ∈ nineStatusSet
    fin_cases hx <;> decide
  | none =>
    cases h2 : alookup packetToRuntime (PyStr.upper (normalizeToken v)) with
    | some x =>
      have hx := alookup_mem_snd h2
      show x ∈ nineStatusSet
      fin_cases hx <;> decide
    | none => decide

end GovStatus

namespace LogChain

theorem verifyIssues_nil_iff_goodFrom {H : Type} [DecidableEq H]
    (empty : H) (hashFn : Payload H → H) :
    ∀ (l : List (Entry H)) (idx c : Nat) (last : H),
      verifyIssues empty hashFn idx c last l = [] ↔
        goodFrom empty hashFn c last l = true := by
  intro l
  induction l with
  | nil => intro idx c last; simp [verifyIssues, goodFrom]
  | cons e rest ih =>
    intro idx c last
    simp only [verifyIssues, goodFrom]
    by_cases hall : hasAllChain e = true
    · simp only [hall, Bool.not_true, Bool.and_false, if_true, Bool.true_and]
      by_cases h1 : e.chainEventId = some (evtId (c + 1)) <;>
        by_cases h2 : e.chainPrev = some last <;>
          by_cases h3 : e.chainHash = some (hashFn (payloadOf e)) <;>
            simp [h1, h2, h3, ih, Bool.and_assoc]
    · simp only [Bool.not_eq_true] at hall
      simp only [hall, Bool.not_false, Bool.and_true, Bool.false_and]
      by_cases hany : hasAnyChain e = true
      · simp [hany]
      · simp only [Bool.not_eq_true] at hany
        simp [hany, ih]

end LogChain

namespace LogChain

theorem goodFrom_cons_false {H : Type} [DecidableEq H]
    (empty : H) (hashFn : Payload H → H) {c : Nat} {last : H}
    {e' : Entry H} {rest : List (Entry H)}
    (hany : hasAnyChain e' = true)
    (hcond : ¬(hasAllChain e' = true ∧ e'.chainEventId = some (evtId (c + 1)) ∧
        e'.chainPrev = some last ∧ e'.chainHash = some (hashFn (payloadOf e')))) :
    goodFrom empty hashFn c last (e' :: rest) = false := by
  rw [Bool.eq_false_iff]
  intro hcontra
  simp only [goodFrom] at hcontra
  by_cases ha : hasAllChain e' = true
  · rw [if_pos ha] at hcontra
    simp only [Bool.and_eq_true, decide_eq_true_eq] at hcontra
    exact hcond ⟨ha, hcontra.1.1.1, hcontra.1.1.2, hcontra.1.2⟩
  · rw [if_neg ha] at hcontra
    simp only [Bool.and_eq_true, Bool.not_eq_true'] at hcontra
    exact ha (by simp [hcontra.1] at hany) |>.elim

theorem hasAnyChain_of_oneFieldChanged {H : Type} {e e' : Entry H}
    (hch : oneFieldChanged e e') (hall : hasAllChain e = true) :
    hasAnyChain e' = true := by
  obtain ⟨-, hcase⟩ := hch
  cases e
  rcases hcase with ⟨v, rfl⟩ | ⟨v, rfl⟩ | ⟨v, rfl⟩ | ⟨v, rfl⟩ | ⟨v, rfl⟩ |
    ⟨v, rfl⟩ | ⟨v, rfl⟩ | ⟨v, rfl⟩ <;>
    simp_all [hasAnyChain, hasAllChain]

theorem oneFieldChanged_head_violation {H : Type} [DecidableEq H]
    {hashFn : Payload H → H} (hinj : Function.Injective hashFn)
    {e e' : Entry H} {c : Nat} {last : H}
    (hch : oneFieldChanged e e')
    (h1 : e.chainEventId = some (evtId (c + 1))) (h2 : e.chainPrev = some last)
    (h3 : e.chainHash = some (hashFn (payloadOf e))) :
    ¬(hasAllChain e' = true ∧ e'.chainEventId = some (evtId (c + 1)) ∧
        e'.chainPrev = some last ∧ e'.chainHash = some (hashFn (payloadOf e'))) := by
  rintro ⟨ha', h1', h2', h3'⟩
  obtain ⟨hne, hcase⟩ := hch
  apply hne
  obtain ⟨p, ev, ag, ts, no, eid, pr, hh⟩ := e
  rcases hcase with ⟨v, rfl⟩ | ⟨v, rfl⟩ | ⟨v, rfl⟩ | ⟨v, rfl⟩ | ⟨v, rfl⟩ |
    ⟨v, rfl⟩ | ⟨v, rfl⟩ | ⟨v, rfl⟩
  · -- packet_id changed: the recomputed hash pins the payload
    have hpay := hinj (Option.some.inj (h3 ▸ h3' : _ = some (hashFn _))).symm
    simp only [payloadOf, Payload.mk.injEq] at hpay
    simp [hpay.1]
  · have hpay := hinj (Option.some.inj (h3 ▸ h3' : _ = some (hashFn _))).symm
    simp only [payloadOf, Payload.mk.injEq] at hpay
    simp [hpay.2.1]
  · have hpay := hinj (Option.some.inj (h3 ▸ h3' : _ = some (hashFn _))).symm
    simp only [payloadOf, Payload.mk.injEq] at hpay
    simp [hpay.2.2.1]
  · have hpay := hinj (Option.some.inj (h3 ▸ h3' : _ = some (hashFn _))).symm
    simp only [payloadOf, Payload.mk.injEq] at hpay
    simp [hpay.2.2.2.1]
  · have hpay := hinj (Option.some.inj (h3 ▸ h3' : _ = some (hashFn _))).symm
    simp only [payloadOf, Payload.mk.injEq] at hpay
    simp [hpay.2.2.2.2.1]
  · -- chainEventId changed: the expected event_id pins it back
    have hv : v = some (evtId (c + 1)) := h1'
    have he : eid = some (evtId (c + 1)) := h1
    show Entry.mk p ev ag ts no v pr hh = Entry.mk p ev ag ts no eid pr hh
    rw [hv, he]
  · -- chainPrev changed: the expected prev_hash pins it back
    have hv : v = some last := h2'
    have he : pr = some last := h2
    show Entry.mk p ev ag ts no eid v hh = Entry.mk p ev ag ts no eid pr hh
    rw [hv, he]
  · -- chainHash changed: the recomputed hash pins it back
    have hv : v = some (hashFn ⟨p, ev, ag, ts, no, eid, pr⟩) := h3'
    have he : hh = some (hashFn ⟨p, ev, ag, ts, no, eid, pr⟩) := h3
    show Entry.mk p ev ag ts no eid pr v = Entry.mk p ev ag ts no eid pr hh
    rw [hv, he]

theorem goodFrom_set_of_oneFieldChanged {H : Type} [DecidableEq H]
    (empty : H) (hashFn : Payload H → H) (hinj : Function.Injective hashFn)
    {e e' : Entry H} (hch : oneFieldChanged e e') (hall : hasAllChain e = true) :
    ∀ (l : List (Entry H)) (i c : Nat) (last : H),
      l.get? i = some e →
      goodFrom empty hashFn c last l = true →
      goodFrom empty hashFn c last (l.set i e') = false := by
  intro l
  induction l with
  | nil => intro i c last hg; simp at hg
  | cons x rest ih =>
    intro i c last hg hgood
    cases i with
    | zero =>
      simp only [List.get?] at hg
      have hxe := Option.some.inj hg
      subst hxe
      simp only [List.set]
      simp only [goodFrom, hall, if_pos] at hgood
      simp only [Bool.and_eq_true, decide_eq_true_eq] at hgood
      exact goodFrom_cons_false empty hashFn
        (hasAnyChain_of_oneFieldChanged hch hall)
        (oneFieldChanged_head_violation hinj hch hgood.1.1.1 hgood.1.1.2 hgood.1.2)
    | succ i =>
      simp only [List.get?] at hg
      simp only [List.set]
      rw [Bool.eq_false_iff]
      intro hcontra
      simp only [goodFrom] at hgood hcontra
      by_cases hallx : hasAllChain x = true
      · rw [if_pos hallx] at hgood hcontra
        simp only [Bool.and_eq_true] at hgood hcontra
        have := ih i (c + 1) _ hg hgood.2
        rw [hcontra.2] at this
        exact absurd this (by decide)
      · rw [if_neg hallx] at hgood hcontra
        simp only [Bool.and_eq_true] at hgood hcontra
        have := ih i c last hg hgood.2
        rw [hcontra.2] at this
        exact absurd this (by decide)

end LogChain

namespace LogChain

theorem mockHash_injective : Function.Injective mockHash := by
  intro a b h
  obtain ⟨ap, ae, ag, at_, an, ai, apr⟩ := a
  obtain ⟨bp, be, bg, bt, bn, bi, bpr⟩ := b
  cases apr <;> cases bpr <;> simp_all [mockHash]

/-- C7 (P7/I8) Activity-log tamper evidence: `verify_log_integrity` accepts a
log exactly when, scanning in order and skipping plain entries, every hashed
entry carries `event_id = "evt-"+zpad(index,8)` over hashed entries only,
`prev_hash` equal to the previous hashed entry's hash (the empty sentinel
before the first), and `hash` equal to the recomputed payload hash, a partial
set of chain fields being fatal; and whenever it returns `ok = true`, changing
any single stored field value of any hashed entry (packet_id, event, agent,
timestamp, notes, event_id, prev_hash, or hash) makes it return `ok = false`
(assuming the hash function is collision-free, i.e. injective). -/
theorem c7_log_tamper_evidence {H : Type} [DecidableEq H]
    (empty : H) (hashFn : Payload H → H) (hinj : Function.Injective hashFn) :
    (∀ entries : List (Entry H),
       (verify_log_integrity empty hashFn entries).1 = true ↔
         goodFrom empty hashFn 0 empty entries = true) ∧
    (∀ (entries : List (Entry H)) (i : Nat) (e e' : Entry H),
       (verify_log_integrity empty hashFn entries).1 = true →
       entries.get? i = some e →
       hasAllChain e = true →
       oneFieldChanged e e' →
       (verify_log_integrity empty hashFn (entries.set i e')).1 = false) := by
  have hiff : ∀ entries : List (Entry H),
      (verify_log_integrity empty hashFn entries).1 = true ↔
        goodFrom empty hashFn 0 empty entries = true := by
    intro entries
    simp only [verify_log_integrity, List.isEmpty_iff]
    exact verifyIssues_nil_iff_goodFrom empty hashFn entries 0 0 empty
  refine ⟨hiff, ?_⟩
  intro entries i e e' hok hget hall hch
  have hgood := (hiff entries).mp hok
  have hbad := goodFrom_set_of_oneFieldChanged empty hashFn hinj hch hall
    entries i 0 empty hget hgood
  rw [Bool.eq_false_iff]
  intro hcontra
  have := (hiff (entries.set i e')).mp hcontra
  rw [hbad] at this
  exact absurd this (by decide)

/-- C7 witness: a concrete one-entry hash-chained log verifies, and changing
its `notes` field value makes verification fail. -/
theorem c7_log_tamper_evidence_witness :
    (verify_log_integrity MockH.root mockHash ([exampleEntry].set 0 exampleTampered)).1 = false :=
  (c7_log_tamper_evidence MockH.root mockHash mockHash_injective).2
    [exampleEntry] 0 exampleEntry exampleTampered
    (by decide)
    (by rfl)
    (by decide)
    ⟨by decide, Or.inr (Or.inr (Or.inr (Or.inr (Or.inl ⟨some "tampered", rfl⟩))))⟩

end LogChain

namespace Dcl

/-- C6 counterexample: a packet store whose journal `{seq 1, hash "X"}`
disagrees with the stored commit file's own `commit_hash "Y"` (a hash mismatch
between journal and stored commit, which the claim says must be declared
blocked) is nevertheless recovered: `recover_packet_journal` reports
`recovered` and overwrites HEAD with the journal's hash. -/
theorem c6_counterexample :
    (recover_packet_journal exampleJournalStore).1.status = "recovered" ∧
    (recover_packet_journal exampleJournalStore).1.recovered = true ∧
    (recover_packet_journal exampleJournalStore).2.headHash = "X" ∧
    exampleJournalStore.journal = some ⟨1, "X"⟩ ∧
    findCommitFile exampleJournalStore.commitFiles 1 = some "Y" ∧
    "X" ≠ "Y" := by
  refine ⟨rfl, rfl, rfl, rfl, rfl, ?_⟩
  decide

/-- C6 (amended): journal crash recovery never reads the stored commit's
content.  With no journal nothing happens; when the journal has `seq > 0`, a
non-empty `commit_hash` and the commit file merely exists, HEAD is
unconditionally overwritten with the journal's `{seq, commit_hash}` and the
journal deleted (regardless of what the stored commit contains, and whether
HEAD matched or lagged); only the remaining shapes — `seq ≤ 0`, empty journal
hash, or missing commit file — are declared blocked, leaving the store
unchanged. -/
theorem c6_journal_recovery_characterization (st : PacketStore) :
    (st.journal = none → recover_packet_journal st = (⟨false, "none"⟩, st)) ∧
    (∀ j, st.journal = some j →
      ((j.seq > 0 ∧ j.commit_hash ≠ "" ∧ (findCommitFile st.commitFiles j.seq).isSome = true) →
        recover_packet_journal st =
          (⟨true, "recovered"⟩,
           { st with headSeq := j.seq, headHash := j.commit_hash, journal := none })) ∧
      (¬(j.seq > 0 ∧ j.commit_hash ≠ "" ∧ (findCommitFile st.commitFiles j.seq).isSome = true) →
        recover_packet_journal st = (⟨false, "blocked"⟩, st))) := by
  constructor
  · intro hn
    unfold recover_packet_journal
    rw [hn]
  · intro j hj
    constructor
    · intro hcond
      unfold recover_packet_journal
      rw [hj]
      exact if_pos hcond
    · intro hcond
      unfold recover_packet_journal
      rw [hj]
      exact if_neg hcond

/-- C6 witness: the characterization applied to the concrete counterexample
store (journal present, commit file present): the recovered branch fires. -/
theorem c6_journal_recovery_witness :
    recover_packet_journal exampleJournalStore =
      (⟨true, "recovered"⟩,
       { exampleJournalStore with headSeq := 1, headHash := "X", journal := none }) :=
  ((c6_journal_recovery_characterization exampleJournalStore).2 ⟨1, "X"⟩ rfl).1
    (by refine ⟨by decide, by decide, ?_⟩; rfl)

end Dcl

namespace Dcl

theorem if_singleton_nil {P : Prop} [Decidable P] {s : String}
    (h : (if P then ([] : List String) else [s]) = []) : P := by
  by_cases hp : P
  · exact hp
  · rw [if_neg hp] at h
    simp at h

theorem perCommitIssues_nil {E D Hsh S : Type} [DecidableEq Hsh]
    {M : HashModel E D Hsh S} {pid : String} {idx : Nat}
    {prev : Option (Commit E D Hsh)} {seen : List Int} {c : Commit E D Hsh}
    (h : perCommitIssues M pid idx prev seen c = []) :
    c.seq = (idx : Int) + 1 ∧
    M.hashEnv c.action_envelope = c.action_hash ∧
    M.hashBase (baseOf c) = c.commit_hash ∧
    (prev = none → c.prev_commit_hash = M.genesis) ∧
    (∀ p, prev = some p →
      c.prev_commit_hash = p.commit_hash ∧ c.pre_state_hash = p.post_state_hash) := by
  unfold perCommitIssues at h
  simp only [List.append_eq_nil] at h
  obtain ⟨⟨⟨⟨-, h2⟩, h3⟩, h4⟩, h5⟩ := h
  refine ⟨if_singleton_nil h2, if_singleton_nil h3, if_singleton_nil h4, ?_, ?_⟩
  · intro hp
    rw [hp] at h5
    exact if_singleton_nil h5
  · intro p hp
    rw [hp] at h5
    simp only [List.append_eq_nil] at h5
    exact ⟨if_singleton_nil h5.1, if_singleton_nil h5.2⟩

theorem loopIssues_nil_cons {E D Hsh S : Type} [DecidableEq Hsh]
    {M : HashModel E D Hsh S} {pid : String} {idx : Nat}
    {prev : Option (Commit E D Hsh)} {seen : List Int} {c : Commit E D Hsh}
    {rest : List (Commit E D Hsh)}
    (h : loopIssues M pid idx prev seen (c :: rest) = []) :
    perCommitIssues M pid idx prev seen c = [] ∧
      loopIssues M pid (idx + 1) (some c) (c.seq :: seen) rest = [] := by
  unfold loopIssues at h
  simpa only [List.append_eq_nil] using h

theorem loopIssues_nil_get {E D Hsh S : Type} [DecidableEq Hsh]
    {M : HashModel E D Hsh S} {pid : String} :
    ∀ (l : List (Commit E D Hsh)) (idx : Nat) (prev : Option (Commit E D Hsh))
      (seen : List Int), loopIssues M pid idx prev seen l = [] →
      ∀ (k : Nat) (hk : k < l.length),
        (l.get ⟨k, hk⟩).seq = (idx : Int) + (k : Int) + 1 ∧
        M.hashEnv (l.get ⟨k, hk⟩).action_envelope = (l.get ⟨k, hk⟩).action_hash ∧
        M.hashBase (baseOf (l.get ⟨k, hk⟩)) = (l.get ⟨k, hk⟩).commit_hash := by
  intro l
  induction l with
  | nil => intro idx prev seen h k hk; simp at hk
  | cons c rest ih =>
    intro idx prev seen h k hk
    obtain ⟨hc, hrest⟩ := loopIssues_nil_cons h
    obtain ⟨hseq, henv, hbase, -, -⟩ := perCommitIssues_nil hc
    cases k with
    | zero => simpa using ⟨hseq, henv, hbase⟩
    | succ k =>
      have hk' : k < rest.length := by simpa using hk
      have := ih (idx + 1) (some c) (c.seq :: seen) hrest k hk'
      simp only [List.get_cons_succ]
      refine ⟨?_, this.2.1, this.2.2⟩
      rw [this.1]
      omega

end Dcl

namespace Dcl

theorem loopIssues_nil_links {E D Hsh S : Type} [DecidableEq Hsh]
    {M : HashModel E D Hsh S} {pid : String} :
    ∀ (l : List (Commit E D Hsh)) (idx : Nat) (prev : Option (Commit E D Hsh))
      (seen : List Int), loopIssues M pid idx prev seen l = [] →
      (∀ p, prev = some p → ∀ (h0 : 0 < l.length),
        (l.get ⟨0, h0⟩).prev_commit_hash = p.commit_hash ∧
        (l.get ⟨0, h0⟩).pre_state_hash = p.post_state_hash) ∧
      (∀ (k : Nat) (hk1 : k + 1 < l.length),
        (l.get ⟨k + 1, hk1⟩).prev_commit_hash =
          (l.get ⟨k, Nat.lt_of_succ_lt hk1⟩).commit_hash ∧
        (l.get ⟨k + 1, hk1⟩).pre_state_hash =
          (l.get ⟨k, Nat.lt_of_succ_lt hk1⟩).post_state_hash) := by
  intro l
  induction l with
  | nil =>
    intro idx prev seen h
    constructor
    · intro p hp h0; simp at h0
    · intro k hk1; simp at hk1
  | cons c rest ih =>
    intro idx prev seen h
    obtain ⟨hc, hrest⟩ := loopIssues_nil_cons h
    obtain ⟨-, -, -, -, hlink⟩ := perCommitIssues_nil hc
    have ihr := ih (idx + 1) (some c) (c.seq :: seen) hrest
    constructor
    · intro p hp h0
      simpa using hlink p hp
    · intro k hk1
      cases k with
      | zero =>
        have h0 : 0 < rest.length := by simpa using hk1
        simpa using ihr.1 c rfl h0
      | succ k =>
        have hk' : k + 1 < rest.length := by simpa using hk1
        simpa using ihr.2 k hk'

theorem verifyIssues_nil_head {E D Hsh S : Type} [DecidableEq Hsh]
    {M : HashModel E D Hsh S} {pid : String} {l : List (Commit E D Hsh)}
    {head : HeadRec Hsh}
    (h : verifyPacketIssues M pid l head none = []) (hne : l ≠ []) :
    loopIssues M pid 0 none [] l = [] ∧
    head.seq = (l.getLast hne).seq ∧
    head.commit_hash = (l.getLast hne).commit_hash := by
  unfold verifyPacketIssues at h
  rw [List.getLast?_eq_getLast l hne] at h
  simp only [List.append_eq_nil] at h
  obtain ⟨⟨⟨hloop, hseq⟩, hhash⟩, -⟩ := h
  exact ⟨hloop, if_singleton_nil hseq, if_singleton_nil hhash⟩

theorem commit_eq_of_base_eq {E D Hsh : Type} {a b : Commit E D Hsh}
    (hb : baseOf a = baseOf b) (hh : a.commit_hash = b.commit_hash) : a = b := by
  cases a
  cases b
  simp only [baseOf, CommitBase.mk.injEq] at hb
  simp only [Commit.mk.injEq]
  exact ⟨hb.1, hb.2.1, hb.2.2.1, hb.2.2.2.1, hb.2.2.2.2.1, hb.2.2.2.2.2.1,
    hb.2.2.2.2.2.2.1, hb.2.2.2.2.2.2.2.1, hb.2.2.2.2.2.2.2.2.1,
    hb.2.2.2.2.2.2.2.2.2.1, hb.2.2.2.2.2.2.2.2.2.2, hh⟩

end Dcl

namespace Dcl

theorem getLast_as_get {α : Type} (l : List α) (h : l ≠ [])
    (hlt : l.length - 1 < l.length) : l.getLast h = l.get ⟨l.length - 1, hlt⟩ := by
  rw [List.getLast_eq_getElem]
  simp [List.get_eq_getElem]

/-- C5 (amended, P8): for a packet ledger whose stored `verify_packet` issue
list is empty, the verifier has recomputed and pinned, for every stored
commit, its sequence number to its ordinal, `action_hash` and `commit_hash` to
the recomputed hashes, and `HEAD` to the last commit; consequently — assuming
the commit-base hash is collision-free (injective) — removing any commit file
while at least one remains, re-ordering the commit files in any non-trivial
way, and editing any commit file all make per-packet verification fail with an
issue.  (Removing every commit file is the exception the counterexample
exhibits: an empty listing verifies ok when no runtime state is supplied.) -/
theorem c5_dcl_tamper_evidence {E D Hsh S : Type} [DecidableEq Hsh]
    (M : HashModel E D Hsh S) (pid : String)
    (hBaseInj : Function.Injective M.hashBase)
    (l : List (Commit E D Hsh)) (head : HeadRec Hsh)
    (hvalid : verifyPacketIssues M pid l head none = []) :
    (∀ (k : Nat) (hk : k < l.length),
        (l.get ⟨k, hk⟩).seq = (k : Int) + 1 ∧
        M.hashEnv (l.get ⟨k, hk⟩).action_envelope = (l.get ⟨k, hk⟩).action_hash ∧
        M.hashBase (baseOf (l.get ⟨k, hk⟩)) = (l.get ⟨k, hk⟩).commit_hash) ∧
    (∀ hne : l ≠ [],
        head.seq = (l.getLast hne).seq ∧
        head.commit_hash = (l.getLast hne).commit_hash) ∧
    (2 ≤ l.length → ∀ i, i < l.length →
        verifyPacketIssues M pid (l.eraseIdx i) head none ≠ []) ∧
    (∀ l' : List (Commit E D Hsh), l'.Perm l → l' ≠ l →
        verifyPacketIssues M pid l' head none ≠ []) ∧
    (∀ (i : Nat) (hi : i < l.length) (c' : Commit E D Hsh), c' ≠ l.get ⟨i, hi⟩ →
        verifyPacketIssues M pid (l.set i c') head none ≠ []) := by
  have facts0 : ∀ (k : Nat) (hk : k < l.length),
      (l.get ⟨k, hk⟩).seq = (k : Int) + 1 ∧
      M.hashEnv (l.get ⟨k, hk⟩).action_envelope = (l.get ⟨k, hk⟩).action_hash ∧
      M.hashBase (baseOf (l.get ⟨k, hk⟩)) = (l.get ⟨k, hk⟩).commit_hash := by
    intro k hk
    have hne : l ≠ [] := by
      intro hq
      subst hq
      simp at hk
    have hh := verifyIssues_nil_head hvalid hne
    have := loopIssues_nil_get l 0 none [] hh.1 k hk
    refine ⟨?_, this.2.1, this.2.2⟩
    rw [this.1]
    omega
  have factsHead : ∀ hne : l ≠ [],
      head.seq = (l.getLast hne).seq ∧
      head.commit_hash = (l.getLast hne).commit_hash :=
    fun hne => (verifyIssues_nil_head hvalid hne).2
  have headSeqLen : l ≠ [] → head.seq = (l.length : Int) := by
    intro hne
    have h0 : 0 < l.length := List.length_pos.mpr hne
    have hgl := getLast_as_get l hne (by omega)
    have := (factsHead hne).1
    rw [hgl] at this
    rw [this, (facts0 (l.length - 1) (by omega)).1]
    omega
  refine ⟨facts0, factsHead, ?_, ?_, ?_⟩
  · -- removal of one commit file, at least one remaining
    intro h2 i hi hcontra
    have hlen' : (l.eraseIdx i).length = l.length - 1 :=
      List.length_eraseIdx_of_lt hi
    have hne' : l.eraseIdx i ≠ [] := by
      intro hq
      rw [hq] at hlen'
      simp at hlen'
      omega
    have hh' := verifyIssues_nil_head hcontra hne'
    by_cases hilast : i + 1 < l.length
    · -- a later commit slides into slot i: its stored seq betrays it
      have hki : i < (l.eraseIdx i).length := by omega
      have heq : (l.eraseIdx i).get ⟨i, hki⟩ = l.get ⟨i + 1, hilast⟩ := by
        have := List.getElem_eraseIdx_of_ge l i i (by simpa [List.length_eraseIdx_of_lt hi] using hki) (Nat.le_refl i)
        simpa [List.get_eq_getElem] using this
      have hs1 := (loopIssues_nil_get _ 0 none [] hh'.1 i hki).1
      rw [heq] at hs1
      have hs2 := (facts0 (i + 1) hilast).1
      rw [hs1] at hs2
      omega
    · -- the last commit was removed: HEAD's seq betrays it
      have hneL : l ≠ [] := by
        intro hq
        subst hq
        simp at hi
      have hOrig := headSeqLen hneL
      have hglE := getLast_as_get (l.eraseIdx i) hne' (by omega)
      have hseqE := (hh'.2).1
      rw [hglE] at hseqE
      have hgetE := (loopIssues_nil_get _ 0 none [] hh'.1 ((l.eraseIdx i).length - 1)
        (by omega)).1
      rw [hgetE] at hseqE
      rw [hOrig] at hseqE
      omega
  · -- non-trivial re-ordering: some slot's stored seq betrays it
    intro l' hperm hneq hcontra
    apply hneq
    have hlen := hperm.length_eq
    by_cases hniL : l = []
    · subst hniL
      exact List.eq_nil_of_length_eq_zero (by simpa using hlen)
    · have hne' : l' ≠ [] := by
        intro hq
        subst hq
        exact hniL (List.eq_nil_of_length_eq_zero (by simpa using hlen.symm))
      have hh' := verifyIssues_nil_head hcontra hne'
      have hget' := loopIssues_nil_get l' 0 none [] hh'.1
      apply List.ext_get hlen
      intro n h1 h2
      have hmem : l'.get ⟨n, h1⟩ ∈ l := hperm.mem_iff.mp (l'.get_mem _ _)
      obtain ⟨j, hj⟩ := List.mem_iff_get.mp hmem
      have e1 := (facts0 j.1 j.2).1
      rw [hj] at e1
      have e2 := (hget' n h1).1
      have hjn : j.1 = n := by omega
      have hjf : j = ⟨n, h2⟩ := Fin.ext hjn
      rw [hjf] at hj
      exact hj.symm
  · -- editing one commit file: hash pinning betrays it
    intro i hi c' hneqc hcontra
    have hlenS : (l.set i c').length = l.length := List.length_set l i c'
    have hneL : l ≠ [] := by
      intro hq
      subst hq
      simp at hi
    have hne' : l.set i c' ≠ [] := by
      intro hq
      rw [hq] at hlenS
      exact hneL (List.eq_nil_of_length_eq_zero hlenS.symm)
    have hh' := verifyIssues_nil_head hcontra hne'
    have hget' := loopIssues_nil_get _ 0 none [] hh'.1
    have hlinks' := loopIssues_nil_links _ 0 none [] hh'.1
    have hiS : i < (l.set i c').length := by omega
    have hgetSet : (l.set i c').get ⟨i, hiS⟩ = c' := by
      simp [List.get_eq_getElem, List.getElem_set_self]
    have hb' := (hget' i hiS).2.2
    rw [hgetSet] at hb'
    have hbOrig := (facts0 i hi).2.2
    have hchNe : c'.commit_hash ≠ (l.get ⟨i, hi⟩).commit_hash := by
      intro hch
      apply hneqc
      apply commit_eq_of_base_eq _ hch
      apply hBaseInj
      rw [hb', hbOrig, hch]
    by_cases hnext : i + 1 < l.length
    · -- the next commit's prev link pins the edited commit's hash
      have hk1 : i + 1 < (l.set i c').length := by omega
      have hl1 := (hlinks'.2 i hk1).1
      have hg1 : (l.set i c').get ⟨i + 1, hk1⟩ = l.get ⟨i + 1, hnext⟩ := by
        simp [List.get_eq_getElem, List.getElem_set_ne (by omega : i ≠ i + 1)]
      have hgiS : (l.set i c').get ⟨i, Nat.lt_of_succ_lt hk1⟩ = c' := by
        simp [List.get_eq_getElem, List.getElem_set_self]
      rw [hg1, hgiS] at hl1
      have hloopOrig := (verifyIssues_nil_head hvalid hneL).1
      have hlinksOrig := loopIssues_nil_links l 0 none [] hloopOrig
      have hl0 := (hlinksOrig.2 i hnext).1
      have : (l.get ⟨i, Nat.lt_of_succ_lt hnext⟩) = (l.get ⟨i, hi⟩) := rfl
      rw [this] at hl0
      exact hchNe (hl1 ▸ hl0)
    · -- the edited commit is the last one: HEAD's hash pins it
      have hiLast : i = l.length - 1 := by omega
      have hglS := getLast_as_get (l.set i c') hne' (by omega)
      have hhS := (hh'.2).2
      rw [hglS] at hhS
      have hlast : ((l.set i c').length - 1) = i := by omega
      have hgS : (l.set i c').get ⟨(l.set i c').length - 1, by omega⟩ = c' := by
        have : ((l.set i c').length - 1) = i := by omega
        simp only [this]
        simp [List.get_eq_getElem, List.getElem_set_self]
      rw [hgS] at hhS
      have hglO := getLast_as_get l hneL (by omega)
      have hhO := (factsHead hneL).2
      rw [hglO] at hhO
      have hgO : l.get ⟨l.length - 1, by omega⟩ = l.get ⟨i, hi⟩ := by
        congr 1
        apply Fin.ext
        show l.length - 1 = i
        omega
      rw [hgO] at hhO
      exact hchNe (hhS ▸ hhO)

end Dcl

namespace Dcl

theorem mockModel_hashBase_injective : Function.Injective mockModel.hashBase := by
  intro a b h
  obtain ⟨acid, apid, asq, aph, aah, aprh, apoh, ach, ⟨⟩, aca, aenv⟩ := a
  obtain ⟨bcid, bpid, bsq, bph, bah, bprh, bpoh, bch, ⟨⟩, bca, benv⟩ := b
  simp only [mockModel, MockD.node.injEq] at h
  simp only [CommitBase.mk.injEq]
  exact ⟨h.1, h.2.1, h.2.2.1, h.2.2.2.1, h.2.2.2.2.1, h.2.2.2.2.2.1,
    h.2.2.2.2.2.2.1, h.2.2.2.2.2.2.2.1, trivial, h.2.2.2.2.2.2.2.2.1,
    h.2.2.2.2.2.2.2.2.2⟩

/-- C5 counterexample: a valid single-commit ledger verifies ok, and after
removing its only commit file (leaving the HEAD in place) `verify_packet` —
which short-circuits on an empty commit listing when no runtime state is
supplied — still returns `ok = true`, where the claim requires failure. -/
theorem c5_counterexample :
    (verify_packet mockModel "PKT-1" [exampleCommit1] exampleHead1).1 = true ∧
    (verify_packet mockModel "PKT-1" (List.eraseIdx [exampleCommit1] 0) exampleHead1).1 = true := by
  constructor
  · decide
  · decide

/-- C5 witness: for a concrete valid two-commit ledger, removing the first
commit file makes verification fail. -/
theorem c5_dcl_tamper_evidence_witness :
    verifyPacketIssues mockModel "PKT-1"
      (List.eraseIdx [exampleCommit1, exampleCommit2] 0) exampleHead2 none ≠ [] :=
  ((c5_dcl_tamper_evidence mockModel "PKT-1" mockModel_hashBase_injective
      [exampleCommit1, exampleCommit2] exampleHead2 (by decide)).2.2.1
    (by decide) 0 (by decide))

end Dcl

namespace Engine

theorem claim_frame (ctx : Ctx) (defn : Definition) (st : State) (pid agent : String) :
    (claim ctx defn st pid agent).ok = false → (claim ctx defn st pid agent).state = st := by
  unfold claim
  dsimp only
  repeat' split
  all_goals intro h
  all_goals try rfl
  all_goals simp at h

end Engine

namespace Engine

theorem done_frame (ctx : Ctx) (st : State) (pid agent notes : String) :
    (done ctx st pid agent notes).ok = false → (done ctx st pid agent notes).state = st := by
  unfold done
  dsimp only
  repeat' split
  all_goals intro h
  all_goals try rfl
  all_goals simp at h

theorem note_frame (ctx : Ctx) (st : State) (pid agent notes : String) :
    (note ctx st pid agent notes).ok = false → (note ctx st pid agent notes).state = st := by
  unfold note
  dsimp only
  repeat' split
  all_goals intro h
  all_goals try rfl
  all_goals simp at h

theorem fail_frame (ctx : Ctx) (defn : Definition) (st : State)
    (pid agent reason : String) (fuel : Nat) (r : EngineResult) :
    fail ctx defn st pid agent reason fuel = some r → r.ok = false → r.state = st := by
  unfold fail
  dsimp only
  repeat' split
  all_goals intro hr hok
  all_goals cases hr
  all_goals try rfl
  all_goals simp at hok

theorem reset_frame (ctx : Ctx) (st : State) (pid : String) :
    (reset ctx st pid).ok = false → (reset ctx st pid).state = st := by
  unfold reset
  dsimp only
  repeat' split
  all_goals intro h
  all_goals try rfl
  all_goals simp at h

theorem handover_frame (ctx : Ctx) (st : State) (pid agent reason pn : String)
    (fm rw : List String) (ta : Option String) :
    (handover ctx st pid agent reason pn fm rw ta).ok = false →
      (handover ctx st pid agent reason pn fm rw ta).state = st := by
  unfold handover
  dsimp only
  repeat' split
  all_goals intro h
  all_goals try rfl
  all_goals simp at h

theorem resume_frame (ctx : Ctx) (st : State) (pid agent : String) :
    (resume ctx st pid agent).ok = false → (resume ctx st pid agent).state = st := by
  unfold resume
  dsimp only
  repeat' split
  all_goals intro h
  all_goals try rfl
  all_goals simp at h

theorem closeout_frame (ctx : Ctx) (defn : Definition) (st : State)
    (aid agent path notes : String) :
    (closeout_l2 ctx defn st aid agent path notes).ok = false →
      (closeout_l2 ctx defn st aid agent path notes).state = st := by
  unfold closeout_l2
  dsimp only
  repeat' split
  all_goals intro h
  all_goals try rfl
  all_goals simp at h

/-- C10 Error atomicity of the engine: every mutating engine operation
(claim, done, note, fail, reset, handover, resume, closeout_l2) that returns
`success = false` performs no save — the persisted state after the call is
exactly the state before the call.  (For `fail`, `some r` is the terminating
run of the cascade loop.) -/
theorem c10_error_atomicity (ctx : Ctx) (defn : Definition) (st : State) :
    (∀ pid agent, (claim ctx defn st pid agent).ok = false →
        (claim ctx defn st pid agent).state = st) ∧
    (∀ pid agent notes, (done ctx st pid agent notes).ok = false →
        (done ctx st pid agent notes).state = st) ∧
    (∀ pid agent notes, (note ctx st pid agent notes).ok = false →
        (note ctx st pid agent notes).state = st) ∧
    (∀ pid agent reason fuel r, fail ctx defn st pid agent reason fuel = some r →
        r.ok = false → r.state = st) ∧
    (∀ pid, (reset ctx st pid).ok = false → (reset ctx st pid).state = st) ∧
    (∀ pid agent reason pn fm rw ta,
        (handover ctx st pid agent reason pn fm rw ta).ok = false →
        (handover ctx st pid agent reason pn fm rw ta).state = st) ∧
    (∀ pid agent, (resume ctx st pid agent).ok = false →
        (resume ctx st pid agent).state = st) ∧
    (∀ aid agent path notes, (closeout_l2 ctx defn st aid agent path notes).ok = false →
        (closeout_l2 ctx defn st aid agent path notes).state = st) :=
  ⟨fun pid agent => claim_frame ctx defn st pid agent,
   fun pid agent notes => done_frame ctx st pid agent notes,
   fun pid agent notes => note_frame ctx st pid agent notes,
   fun pid agent reason fuel r => fail_frame ctx defn st pid agent reason fuel r,
   fun pid => reset_frame ctx st pid,
   fun pid agent reason pn fm rw ta => handover_frame ctx st pid agent reason pn fm rw ta,
   fun pid agent => resume_frame ctx st pid agent,
   fun aid agent path notes => closeout_frame ctx defn st aid agent path notes⟩

/-- C10 witness: a concrete failing `done` (wrong status: the packet is
pending) leaves the state unchanged. -/
theorem c10_error_atomicity_witness :
    (done exampleCtx exampleStateC3 "A" "alice" "n").ok = false ∧
      (done exampleCtx exampleStateC3 "A" "alice" "n").state = exampleStateC3 :=
  ⟨by decide,
   (c10_error_atomicity exampleCtx exampleDefnC3 exampleStateC3).2.1 "A" "alice" "n"
     (by decide)⟩

end Engine

namespace Engine

theorem plookup_updatePacket_self {α : Type} :
    ∀ (l : List (String × α)) (k : String) (v : α),
      (plookup l k).isSome → plookup (updatePacket l k v) k = some v := by
  intro l
  induction l with
  | nil => intro k v h; simp [plookup] at h
  | cons p rest ih =>
    intro k v h
    obtain ⟨pk, pv⟩ := p
    by_cases hk : k = pk
    · simp [plookup, updatePacket, hk]
    · have hk2 : ¬(pk = k) := fun hq => hk hq.symm
      simp only [plookup, if_neg hk] at h
      simp only [updatePacket, if_neg hk2, plookup, if_neg hk]
      exact ih k v h

end Engine

namespace Engine

/-- C1 counterexample: the packet `PKT-1` is `in_progress` and assigned to
`alice`, yet `done` requested by `bob` succeeds and mutates the packet — the
engine's `done` (like `note` and `fail`) performs no ownership check. -/
theorem c1_counterexample :
    (done exampleCtx exampleStateOwned "PKT-1" "bob" "completed the work").ok = true ∧
    (plookup exampleStateOwned.packets "PKT-1").map Packet.assigned_to =
      some (some "alice") ∧
    "bob" ≠ "alice" ∧
    (done exampleCtx exampleStateOwned "PKT-1" "bob" "completed the work").state ≠
      exampleStateOwned := by
  refine ⟨by decide, by decide, by decide, by decide⟩

/-- C1 (amended): the ownership invariant is enforced by `handover` alone —
when a packet's `assigned_to` is a non-empty owner and the requesting agent
differs, `handover` is rejected and the state is unchanged; `done`, `note`
and `fail` validate status and handover state but never consult
`assigned_to` (the counterexample shows a non-owner `done` succeeding). -/
theorem c1_ownership_handover_only (ctx : Ctx) (st : State)
    (pid agent reason pn : String) (fm rw : List String) (ta : Option String)
    (pkt : Packet) (owner : String)
    (hpkt : plookup st.packets pid = some pkt)
    (howner : pkt.assigned_to = some owner)
    (hownerNe : owner ≠ "") (hagent : agent ≠ owner) :
    (handover ctx st pid agent reason pn fm rw ta).ok = false ∧
    (handover ctx st pid agent reason pn fm rw ta).state = st := by
  unfold handover
  dsimp only
  repeat' split
  all_goals try exact ⟨rfl, rfl⟩
  all_goals simp_all

/-- C1 witness: a concrete non-owner handover attempt is rejected without
mutation. -/
theorem c1_ownership_handover_only_witness :
    (handover exampleCtx exampleStateOwned "PKT-1" "bob" "ooo" "" [] [] none).ok = false ∧
    (handover exampleCtx exampleStateOwned "PKT-1" "bob" "ooo" "" [] [] none).state =
      exampleStateOwned :=
  c1_ownership_handover_only exampleCtx exampleStateOwned "PKT-1" "bob" "ooo" ""
    [] [] none packetInProgressAlice "alice" rfl rfl (by decide) (by decide)

end Engine

namespace Engine

/-- C2 counterexample: a successful `done` transition writes no DCL commit at
all (the engine never calls `dcl.write_commit`), so the packet's DCL HEAD does
not advance — where the claim requires exactly one commit per successful
transition. -/
theorem c2_counterexample :
    (done exampleCtx exampleStateOwned "PKT-1" "alice" "work complete").ok = true ∧
    (done exampleCtx exampleStateOwned "PKT-1" "alice" "work complete").dclWrites.length = 0 := by
  refine ⟨by decide, by decide⟩

/-- C2 (amended): the mutation envelope of the engine performs no ledger
write: every engine transition (claim, done, note, fail, reset, handover,
resume, closeout_l2) returns an empty DCL write list.  The standalone
`dcl.write_commit` — exercised only by its direct callers, not by the engine —
does advance the packet's HEAD by exactly one, appending one commit built from
the pre/post snapshots and the action envelope. -/
theorem c2_mutation_envelope_dcl (ctx : Ctx) (defn : Definition) (st : State) :
    (∀ (E D Hsh S : Type) (inst : DecidableEq Hsh) (M : Dcl.HashModel E D Hsh S)
        (store : Dcl.Ledger E D Hsh) (pid : String) (env : E) (pre post : S)
        (diffFn : S → S → D) (ch now : String),
      (@Dcl.write_commit E D Hsh S inst M store pid env pre post diffFn ch now).2.head.seq =
          store.head.seq + 1 ∧
      (@Dcl.write_commit E D Hsh S inst M store pid env pre post diffFn ch now).2.commits =
          store.commits ++ [(@Dcl.write_commit E D Hsh S inst M store pid env pre post diffFn ch now).1]) ∧
    (∀ pid agent, (claim ctx defn st pid agent).dclWrites = []) ∧
    (∀ pid agent notes, (done ctx st pid agent notes).dclWrites = []) ∧
    (∀ pid agent notes, (note ctx st pid agent notes).dclWrites = []) ∧
    (∀ pid agent reason fuel r, fail ctx defn st pid agent reason fuel = some r →
        r.dclWrites = []) ∧
    (∀ pid, (reset ctx st pid).dclWrites = []) ∧
    (∀ pid agent reason pn fm rw ta,
        (handover ctx st pid agent reason pn fm rw ta).dclWrites = []) ∧
    (∀ pid agent, (resume ctx st pid agent).dclWrites = []) ∧
    (∀ aid agent path notes,
        (closeout_l2 ctx defn st aid agent path notes).dclWrites = []) := by
  refine ⟨fun E D Hsh S inst M store pid env pre post diffFn ch now => ⟨rfl, rfl⟩,
    ?_, ?_, ?_, ?_, ?_, ?_, ?_, ?_⟩
  · intro pid agent
    unfold claim
    dsimp only
    repeat' split
    all_goals rfl
  · intro pid agent notes
    unfold done
    dsimp only
    repeat' split
    all_goals rfl
  · intro pid agent notes
    unfold note
    dsimp only
    repeat' split
    all_goals rfl
  · intro pid agent reason fuel r hr
    unfold fail at hr
    dsimp only at hr
    repeat' split at hr
    all_goals cases hr
    all_goals rfl
  · intro pid
    unfold reset
    dsimp only
    repeat' split
    all_goals rfl
  · intro pid agent reason pn fm rw ta
    unfold handover
    dsimp only
    repeat' split
    all_goals rfl
  · intro pid agent
    unfold resume
    dsimp only
    repeat' split
    all_goals rfl
  · intro aid agent path notes
    unfold closeout_l2
    dsimp only
    repeat' split
    all_goals rfl

/-- C2 witness: on a fresh mock ledger (`HEAD = {0, GENESIS}`),
`write_commit` advances HEAD to seq 1; and a concrete successful `done`
returns no DCL writes. -/
theorem c2_mutation_envelope_dcl_witness :
    (Dcl.write_commit Dcl.mockModel ⟨⟨0, Dcl.MockD.gen⟩, []⟩ "PKT-1" "claim" () ()
        (fun _ _ => ()) "" "t1").2.head.seq = 1 ∧
    (done exampleCtx exampleStateOwned "PKT-1" "alice" "work complete").dclWrites = [] := by
  constructor
  · have := ((c2_mutation_envelope_dcl exampleCtx exampleDefnC3 exampleStateOwned).1
      String Unit Dcl.MockD Unit inferInstance Dcl.mockModel ⟨⟨0, Dcl.MockD.gen⟩, []⟩
      "PKT-1" "claim" () () (fun _ _ => ()) "" "t1").1
    simpa using this
  · exact (c2_mutation_envelope_dcl exampleCtx exampleDefnC3 exampleStateOwned).2.2.1
      "PKT-1" "alice" "work complete"

end Engine

namespace Engine

/-- C3 (I3) Claim transition: `claim(packet_id, agent)` succeeds exactly when
the supervisor approves the claim request (carrying the packet definition's
required capabilities), the packet exists in state, its normalized status is
`pending`, and every dependency has normalized status `done`; on success it
sets `status = in_progress`, `assigned_to = agent` and `started_at` to the
current time, and on any failed precondition it returns `false` and mutates
nothing. -/
theorem c3_claim_characterization (ctx : Ctx) (defn : Definition) (st : State)
    (pid agent : String) :
    ((claim ctx defn st pid agent).ok = true ↔
      (approveFor ctx "claim" pid (some agent) none
        ((Option.map PacketDef.required_capabilities
          (defn.packets.find? (fun p => p.id = pid))).getD [])).1 = true ∧
      (plookup st.packets pid).isSome = true ∧
      packetStatusIn st pid = "pending" ∧
      (deps_met defn st pid).1 = true) ∧
    ((claim ctx defn st pid agent).ok = false →
      (claim ctx defn st pid agent).state = st) ∧
    (∀ pkt, plookup st.packets pid = some pkt →
      (claim ctx defn st pid agent).ok = true →
      plookup (claim ctx defn st pid agent).state.packets pid =
        some { pkt with status := some "in_progress", assigned_to := some agent,
                        started_at := some ctx.now }) := by
  refine ⟨?_, claim_frame ctx defn st pid agent, ?_⟩
  · unfold claim
    dsimp only
    repeat' split
    all_goals simp_all [packetStatusIn, GovStatus.normalize_runtime_status]
  · intro pkt hp
    unfold claim
    dsimp only
    rw [hp]
    dsimp only
    repeat' split
    all_goals intro hok
    all_goals simp at hok
    all_goals exact plookup_updatePacket_self st.packets pid _ (by simp [hp])

end Engine

namespace Engine

/-- C3 witness: a concrete claim of a pending, dependency-free packet
succeeds and installs `in_progress`/`assigned_to`/`started_at`. -/
theorem c3_claim_characterization_witness :
    (claim exampleCtx exampleDefnC3 exampleStateC3 "A" "alice").ok = true ∧
    plookup (claim exampleCtx exampleDefnC3 exampleStateC3 "A" "alice").state.packets "A" =
      some ⟨some "in_progress", some "alice", some exampleCtx.now, none, none, []⟩ := by
  have hok := (c3_claim_characterization exampleCtx exampleDefnC3 exampleStateC3
    "A" "alice").1.mpr ⟨by decide, by decide, by decide, by decide⟩
  exact ⟨hok,
    (c3_claim_characterization exampleCtx exampleDefnC3 exampleStateC3 "A" "alice").2.2
      ⟨some "pending", none, none, none, none, []⟩ rfl hok⟩

end Engine

namespace Engine

/-- C4 counterexample: `R` is transitively dependent on `P` (via `Q`) and is
`pending`, yet after `fail(P)` it is still `pending`, because the cascade BFS
prunes at the intermediate packet `Q`, whose status is `done`. -/
theorem c4_counterexample :
    (fail exampleCtx exampleDefnC4 exampleStateC4 "P" "alice" "broken" 10).map
        EngineResult.ok = some true ∧
    (fail exampleCtx exampleDefnC4 exampleStateC4 "P" "alice" "broken" 10).map
        (fun r => packetStatusIn r.state "P") = some "failed" ∧
    (fail exampleCtx exampleDefnC4 exampleStateC4 "P" "alice" "broken" 10).map
        (fun r => packetStatusIn r.state "R") = some "pending" ∧
    "Q" ∈ dependents exampleDefnC4 "P" ∧
    "R" ∈ dependents exampleDefnC4 "Q" ∧
    packetStatusIn exampleStateC4 "R" = "pending" := by
  refine ⟨by decide, by decide, by decide, by decide, by decide, by decide⟩

theorem plookup_updatePacket_ne {α : Type} :
    ∀ (l : List (String × α)) (key k : String) (v : α), k ≠ key →
      plookup (updatePacket l key v) k = plookup l k := by
  intro l
  induction l with
  | nil => intro key k v h; rfl
  | cons p rest ih =>
    intro key k v h
    obtain ⟨pk, pv⟩ := p
    by_cases hq : pk = key
    · subst hq
      simp only [updatePacket, if_pos rfl, plookup, if_neg h]
    · simp only [updatePacket, if_neg hq, plookup]
      by_cases hk : k = pk
      · simp [hk]
      · simp only [if_neg hk]
        exact ih key k v h

theorem updatePacket_map_fst {α : Type} :
    ∀ (l : List (String × α)) (key : String) (v : α),
      (updatePacket l key v).map Prod.fst = l.map Prod.fst := by
  intro l
  induction l with
  | nil => intro key v; rfl
  | cons p rest ih =>
    intro key v
    obtain ⟨pk, pv⟩ := p
    by_cases hq : pk = key
    · simp [updatePacket, hq]
    · simp [updatePacket, hq, ih]

theorem appendLog_spec (ctx : Ctx) (s : State) (pid ev : String)
    (ag no : Option String) :
    (appendLog ctx s pid ev ag no).packets = s.packets ∧
    ∃ e, (appendLog ctx s pid ev ag no).log = s.log ++ [e] ∧
      entryProj e = (some pid, some ev, ag, no) := by
  constructor
  · rfl
  · refine ⟨_, rfl, ?_⟩
    unfold LogChain.build_log_entry
    split
    · rfl
    · rfl

theorem activeDepsSum_update (defn : Definition) :
    ∀ (l : List (String × Packet)) (pid : String) (p newp : Packet),
      plookup l pid = some p →
      (GovStatus.normalize_runtime_status p.status = "pending" ∨
        GovStatus.normalize_runtime_status p.status = "in_progress") →
      ¬(GovStatus.normalize_runtime_status newp.status = "pending" ∨
        GovStatus.normalize_runtime_status newp.status = "in_progress") →
      activeDepsSum defn (updatePacket l pid newp) + (dependents defn pid).length =
        activeDepsSum defn l := by
  intro l
  induction l with
  | nil => intro pid p newp hp; simp [plookup] at hp
  | cons kv rest ih =>
    intro pid p newp hp hact hinact
    obtain ⟨k, q⟩ := kv
    by_cases hk : pid = k
    · subst hk
      simp only [plookup, eq_self_iff_true, if_true, Option.some.injEq] at hp
      subst hp
      simp only [updatePacket, eq_self_iff_true, if_true, activeDepsSum, List.map_cons,
        List.sum_cons]
      rw [if_neg hinact, if_pos hact]
      omega
    · have hk2 : ¬(k = pid) := fun hq => hk hq.symm
      simp only [plookup, if_neg hk] at hp
      simp only [updatePacket, if_neg hk2, activeDepsSum, List.map_cons, List.sum_cons]
      have := ih pid p newp hp hact hinact
      unfold activeDepsSum at this
      omega

end Engine


namespace Engine

theorem chain_head_not_avoid {defn : Definition} {s : State} {A : List String}
    {x q : String} (h : ChainAvoid defn s A x q) : x ∉ A := by
  cases h with
  | refl _ _ hA => exact hA
  | step _ _ _ _ hA _ _ => exact hA

theorem chain_head_active {defn : Definition} {s : State} {A : List String}
    {x q : String} (h : ChainAvoid defn s A x q) : activeIn s x := by
  cases h with
  | refl _ ha _ => exact ha
  | step _ _ _ ha _ _ _ => exact ha

theorem chain_snoc {defn : Definition} {s : State} {A : List String}
    {x a p : String} (h : ChainAvoid defn s A x a) (hp : activeIn s p)
    (hpA : p ∉ A) : p ∈ dependents defn a → ChainAvoid defn s A x p := by
  induction h with
  | refl q ha hA =>
    intro hdep
    exact .step A q p p ha hA hdep (.refl A p hp hpA)
  | step x y q ha hA hy hc ih =>
    intro hdep
    exact .step A x y p ha hA hy (ih hdep)

theorem chain_cut {defn : Definition} {s : State} {acc : List String}
    {x q p : String} (h : ChainAvoid defn s acc x q) (hqp : q ≠ p) :
    ChainAvoid defn s (acc ++ [p]) x q ∨
      ∃ y, y ∈ dependents defn p ∧ ChainAvoid defn s (acc ++ [p]) y q := by
  induction h with
  | refl q ha hA =>
    left
    refine .refl _ q ha ?_
    simp only [List.mem_append, List.mem_singleton]
    rintro (h1 | h1)
    · exact hA h1
    · exact hqp h1
  | step x y q ha hA hy hc ih =>
    by_cases hxp : x = p
    · subst hxp
      rcases ih hqp with h1 | ⟨y', hy', h2⟩
      · right; exact ⟨y, hy, h1⟩
      · right; exact ⟨y', hy', h2⟩
    · rcases ih hqp with h1 | h2
      · left
        refine .step _ x y q ha ?_ hy h1
        simp only [List.mem_append, List.mem_singleton]
        rintro (h1' | h1')
        · exact hA h1'
        · exact hxp h1'
      · right; exact h2

theorem dependents_subset_keys {defn : Definition} {p x : String}
    (h : x ∈ dependents defn p) : x ∈ defn.dependencies.map Prod.fst := by
  unfold dependents at h
  simp only [List.mem_map] at h ⊢
  obtain ⟨kv, hkv, rfl⟩ := h
  exact ⟨kv, List.mem_of_mem_filter hkv, rfl⟩

end Engine

namespace Engine

theorem cascadeGo_nil (ctx : Ctx) (defn : Definition) (origin : String)
    (fuel : Nat) (s : State) (acc : List String) :
    cascadeGo ctx defn origin (fuel + 1) s [] acc = some (s, acc) := rfl

theorem cascadeGo_cons (ctx : Ctx) (defn : Definition) (origin : String)
    (fuel : Nat) (s : State) (pid : String) (rest acc : List String) :
    cascadeGo ctx defn origin (fuel + 1) s (pid :: rest) acc =
      match plookup s.packets pid with
      | some cur =>
        if GovStatus.normalize_runtime_status cur.status ∈ ["pending", "in_progress"] then
          cascadeGo ctx defn origin fuel
            (appendLog ctx
              { s with packets :=
                  updatePacket s.packets pid { cur with status := some "blocked" } }
              pid "blocked" none (some ("Blocked by " ++ origin)))
            (rest ++ dependents defn pid) (acc ++ [pid])
        else cascadeGo ctx defn origin fuel s rest acc
      | none =>
        cascadeGo ctx defn origin fuel
          (appendLog ctx s pid "blocked" none (some ("Blocked by " ++ origin)))
          (rest ++ dependents defn pid) (acc ++ [pid]) := rfl

end Engine

namespace Engine

theorem cascade_master (ctx : Ctx) (defn : Definition) (origin : String) (b : State)
    (hkeys : ∀ k, k ∈ defn.dependencies.map Prod.fst → (plookup b.packets k).isSome) :
    ∀ (fuel : Nat) (s : State) (queue acc : List String),
      (∀ x, x ∈ queue → x ∈ defn.dependencies.map Prod.fst) →
      (∀ a, a ∈ acc → a ∈ defn.dependencies.map Prod.fst) →
      (∀ a, a ∈ acc → ∃ x, x ∈ dependents defn origin ∧ ChainAvoid defn b [] x a) →
      (∀ k, plookup s.packets k =
        if k ∈ acc then
          (plookup b.packets k).map (fun p => { p with status := some "blocked" })
        else plookup b.packets k) →
      (∃ suffix, s.log = b.log ++ suffix ∧
        suffix.map entryProj = acc.map (blockedProj origin)) →
      (∀ q, (∃ x, x ∈ dependents defn origin ∧ ChainAvoid defn b [] x q) →
        q ∈ acc ∨ ∃ x, x ∈ queue ∧ ChainAvoid defn b acc x q) →
      (∀ x, x ∈ queue →
        x ∈ dependents defn origin ∨ ∃ a, a ∈ acc ∧ x ∈ dependents defn a) →
      queue.length + activeDepsSum defn s.packets + 1 ≤ fuel →
      ∃ s2 acc2, cascadeGo ctx defn origin fuel s queue acc = some (s2, acc2) ∧
        (∀ q, q ∈ acc2 ↔
          ∃ x, x ∈ dependents defn origin ∧ ChainAvoid defn b [] x q) ∧
        (∀ k, plookup s2.packets k =
          if k ∈ acc2 then
            (plookup b.packets k).map (fun p => { p with status := some "blocked" })
          else plookup b.packets k) ∧
        (∃ suffix, s2.log = b.log ++ suffix ∧
          suffix.map entryProj = acc2.map (blockedProj origin)) := by
  intro fuel
  induction fuel with
  | zero =>
    intro s queue acc _ _ _ _ _ _ _ hfuel
    omega
  | succ fuel ih =>
    intro s queue acc hq hacckeys haccreach hstate hlog hcomp hqsrc hfuel
    cases queue with
    | nil =>
      refine ⟨s, acc, cascadeGo_nil ctx defn origin fuel s acc, ?_, hstate, hlog⟩
      intro q
      constructor
      · exact haccreach q
      · intro hr
        rcases hcomp q hr with h | ⟨x, hx, _⟩
        · exact h
        · exact absurd hx (List.not_mem_nil x)
    | cons pid rest =>
      have hpidkey : pid ∈ defn.dependencies.map Prod.fst :=
        hq pid (List.mem_cons_self pid rest)
      obtain ⟨pb, hpb⟩ : ∃ pb, plookup b.packets pid = some pb :=
        Option.isSome_iff_exists.mp (hkeys pid hpidkey)
      have hsb : packetStatusIn b pid = GovStatus.normalize_runtime_status pb.status := by
        unfold packetStatusIn
        rw [hpb]
        rfl
      by_cases hacc : pid ∈ acc
      · -- already blocked in s: the cascade skips pid
        have hsl : plookup s.packets pid = some { pb with status := some "blocked" } := by
          rw [hstate pid, if_pos hacc, hpb]
          rfl
        have hstep : cascadeGo ctx defn origin (fuel + 1) s (pid :: rest) acc =
            cascadeGo ctx defn origin fuel s rest acc := by
          rw [cascadeGo_cons, hsl]
          dsimp only
          rw [if_neg (by decide)]
        rw [hstep]
        refine ih s rest acc (fun x hx => hq x (List.mem_cons_of_mem pid hx))
          hacckeys haccreach hstate hlog ?_
          (fun x hx => hqsrc x (List.mem_cons_of_mem pid hx)) ?_
        · intro q hr
          rcases hcomp q hr with h | ⟨x, hx, ch⟩
          · exact Or.inl h
          · rcases List.mem_cons.mp hx with hxp | hxr
            · subst hxp
              exact absurd hacc (chain_head_not_avoid ch)
            · exact Or.inr ⟨x, hxr, ch⟩
        · simp only [List.length_cons] at hfuel
          omega
      · -- pid is looked up at its base value
        have hsl : plookup s.packets pid = some pb := by
          rw [hstate pid, if_neg hacc, hpb]
        by_cases hact : GovStatus.normalize_runtime_status pb.status = "pending" ∨
            GovStatus.normalize_runtime_status pb.status = "in_progress"
        · -- block branch
          have hab : activeIn b pid := by
            unfold activeIn
            rw [hsb]
            exact hact
          have hmem : GovStatus.normalize_runtime_status pb.status ∈
              (["pending", "in_progress"] : List String) := by
            rcases hact with h | h <;> simp [h]
          have hstep : cascadeGo ctx defn origin (fuel + 1) s (pid :: rest) acc =
              cascadeGo ctx defn origin fuel
                (appendLog ctx
                  { s with packets :=
                      updatePacket s.packets pid { pb with status := some "blocked" } }
                  pid "blocked" none (some ("Blocked by " ++ origin)))
                (rest ++ dependents defn pid) (acc ++ [pid]) := by
            rw [cascadeGo_cons, hsl]
            dsimp only
            rw [if_pos hmem]
          rw [hstep]
          -- the recursive call's state
          refine ih _ (rest ++ dependents defn pid) (acc ++ [pid]) ?_ ?_ ?_ ?_ ?_ ?_ ?_ ?_
          · intro x hx
            rcases List.mem_append.mp hx with h | h
            · exact hq x (List.mem_cons_of_mem pid h)
            · exact dependents_subset_keys h
          · intro a ha
            rcases List.mem_append.mp ha with h | h
            · exact hacckeys a h
            · rw [List.mem_singleton.mp h]
              exact hpidkey
          · intro a ha
            rcases List.mem_append.mp ha with h | h
            · exact haccreach a h
            · rw [List.mem_singleton.mp h]
              rcases hqsrc pid (List.mem_cons_self pid rest) with h1 | ⟨a', ha', hdep⟩
              · exact ⟨pid, h1, .refl [] pid hab (List.not_mem_nil pid)⟩
              · obtain ⟨x, hx, ch⟩ := haccreach a' ha'
                exact ⟨x, hx, chain_snoc ch hab (List.not_mem_nil pid) hdep⟩
          · intro k
            show plookup (updatePacket s.packets pid { pb with status := some "blocked" }) k = _
            by_cases hk : k = pid
            · subst hk
              rw [plookup_updatePacket_self s.packets k _ (by rw [hsl]; rfl),
                if_pos (List.mem_append_right acc (List.mem_singleton_self k)), hpb]
              rfl
            · rw [plookup_updatePacket_ne s.packets pid k _ hk, hstate k]
              by_cases hka : k ∈ acc
              · rw [if_pos hka, if_pos (List.mem_append_left _ hka)]
              · rw [if_neg hka, if_neg (by
                  simp only [List.mem_append, List.mem_singleton]
                  rintro (h | h)
                  · exact hka h
                  · exact hk h)]
          · obtain ⟨suffix, hsfx, hproj⟩ := hlog
            obtain ⟨-, e, he, hpe⟩ := appendLog_spec ctx
              { s with packets :=
                  updatePacket s.packets pid { pb with status := some "blocked" } }
              pid "blocked" none (some ("Blocked by " ++ origin))
            refine ⟨suffix ++ [e], ?_, ?_⟩
            · rw [he]
              show s.log ++ [e] = b.log ++ (suffix ++ [e])
              rw [hsfx, List.append_assoc]
            · rw [List.map_append, List.map_append, hproj, List.map_singleton,
                List.map_singleton, hpe]
              rfl
          · intro q hr
            rcases hcomp q hr with h | ⟨x, hx, ch⟩
            · exact Or.inl (List.mem_append_left _ h)
            · by_cases hqpid : q = pid
              · subst hqpid
                exact Or.inl (List.mem_append_right acc (List.mem_singleton_self q))
              · rcases chain_cut ch hqpid with ch2 | ⟨y, hyd, ch2⟩
                · have hxpid : x ≠ pid := by
                    intro he2
                    subst he2
                    exact (chain_head_not_avoid ch2)
                      (List.mem_append_right acc (List.mem_singleton_self x))
                  rcases List.mem_cons.mp hx with h1 | h1
                  · exact absurd h1 hxpid
                  · exact Or.inr ⟨x, List.mem_append_left _ h1, ch2⟩
                · exact Or.inr ⟨y, List.mem_append_right rest hyd, ch2⟩
          · intro x hx
            rcases List.mem_append.mp hx with h | h
            · rcases hqsrc x (List.mem_cons_of_mem pid h) with h1 | ⟨a, ha, hdep⟩
              · exact Or.inl h1
              · exact Or.inr ⟨a, List.mem_append_left _ ha, hdep⟩
            · exact Or.inr ⟨pid, List.mem_append_right acc (List.mem_singleton_self pid), h⟩
          · have hsum := activeDepsSum_update defn s.packets pid pb
              { pb with status := some "blocked" } hsl hact (by
                show ¬(GovStatus.normalize_runtime_status (some "blocked") = "pending" ∨
                  GovStatus.normalize_runtime_status (some "blocked") = "in_progress")
                decide)
            show (rest ++ dependents defn pid).length +
              activeDepsSum defn (updatePacket s.packets pid
                { pb with status := some "blocked" }) + 1 ≤ fuel
            rw [List.length_append]
            simp only [List.length_cons] at hfuel
            omega
        · -- inactive: the cascade skips pid
          have hnmem : ¬(GovStatus.normalize_runtime_status pb.status ∈
              (["pending", "in_progress"] : List String)) := by
            simpa using hact
          have hstep : cascadeGo ctx defn origin (fuel + 1) s (pid :: rest) acc =
              cascadeGo ctx defn origin fuel s rest acc := by
            rw [cascadeGo_cons, hsl]
            dsimp only
            rw [if_neg hnmem]
          rw [hstep]
          refine ih s rest acc (fun x hx => hq x (List.mem_cons_of_mem pid hx))
            hacckeys haccreach hstate hlog ?_
            (fun x hx => hqsrc x (List.mem_cons_of_mem pid hx)) ?_
          · intro q hr
            rcases hcomp q hr with h | ⟨x, hx, ch⟩
            · exact Or.inl h
            · rcases List.mem_cons.mp hx with hxp | hxr
              · subst hxp
                have := chain_head_active ch
                unfold activeIn at this
                rw [hsb] at this
                exact absurd this hact
              · exact Or.inr ⟨x, hxr, ch⟩
          · simp only [List.length_cons] at hfuel
            omega

end Engine

namespace Engine

theorem cascade_chain_end_ne {defn : Definition} {st : State} {origin x q : String}
    (h : CascadeChain defn st origin x q) : q ≠ origin := by
  induction h with
  | refl q hq ha => exact hq
  | step x y q hx ha hy hc ih => exact ih

theorem cascade_to_chain_avoid {defn : Definition} {st s2 : State} {origin : String}
    (hne : ∀ k, k ≠ origin → packetStatusIn s2 k = packetStatusIn st k)
    {x q : String} (h : CascadeChain defn st origin x q) :
    ChainAvoid defn s2 [] x q := by
  induction h with
  | refl q hq ha =>
    refine .refl [] _ ?_ (List.not_mem_nil _)
    unfold activeIn at ha ⊢
    rw [hne _ hq]
    exact ha
  | step x y q hx ha hy hc ih =>
    refine .step [] _ _ _ ?_ (List.not_mem_nil _) hy ih
    unfold activeIn at ha ⊢
    rw [hne _ hx]
    exact ha

theorem chain_avoid_to_cascade {defn : Definition} {st s2 : State} {origin : String}
    (hne : ∀ k, k ≠ origin → packetStatusIn s2 k = packetStatusIn st k)
    (horig : ¬ activeIn s2 origin) {A : List String} {x q : String}
    (h : ChainAvoid defn s2 A x q) : CascadeChain defn st origin x q := by
  induction h with
  | refl q ha hA =>
    have hq : q ≠ origin := fun he => horig (he ▸ ha)
    refine .refl q hq ?_
    unfold activeIn at ha ⊢
    rw [← hne q hq]
    exact ha
  | step x y q ha hA hy hc ih =>
    have hx : x ≠ origin := fun he => horig (he ▸ ha)
    refine .step x y q hx ?_ hy ih
    unfold activeIn at ha ⊢
    rw [← hne x hx]
    exact ha

end Engine

namespace Engine

/-- C4: amended cascade characterization. When a supervisor-approved `fail`
hits a packet that exists, is `pending`/`in_progress` after normalization and
has no active handover (and every dependency key denotes a stored packet,
with enough fuel for the finite cascade), it succeeds; the failing packet is
stored `failed` with `completed_at`/`notes` stamped, and the set of packets
flipped to `blocked` is EXACTLY the set reachable from the failing packet's
direct dependents along dependency chains every node of which is itself
`pending`/`in_progress` — the cascade prunes at any intermediate dependent
that is in another status (e.g. `done`), so "transitively dependent AND
active" packets beyond such a node are NOT blocked. All other packets are
untouched, and the log gains one `failed` event followed by one `blocked`
event per newly blocked packet (in traversal order). -/
theorem c4_cascade_characterization (ctx : Ctx) (defn : Definition) (st : State)
    (pid agent reason : String) (fuel : Nat) (pkt : Packet)
    (hap : (approveFor ctx "fail" pid (some agent) (some reason) []).1 = true)
    (hpkt : plookup st.packets pid = some pkt)
    (hstatus : GovStatus.normalize_runtime_status pkt.status = "pending" ∨
      GovStatus.normalize_runtime_status pkt.status = "in_progress")
    (hhand : active_handover pkt = none)
    (hkeys : ∀ k, k ∈ defn.dependencies.map Prod.fst → (plookup st.packets k).isSome)
    (hfuel : activeDepsSum defn st.packets + 1 ≤ fuel) :
    ∃ (r : EngineResult) (blocked : List String),
      fail ctx defn st pid agent reason fuel = some r ∧
      r.ok = true ∧
      (∀ q, q ∈ blocked ↔ cascadeReach defn st pid q) ∧
      plookup r.state.packets pid =
        some { pkt with
          status := some "failed"
          completed_at := some ctx.now
          notes := some reason } ∧
      (∀ k, k ≠ pid → plookup r.state.packets k =
        if k ∈ blocked then
          (plookup st.packets k).map (fun p => { p with status := some "blocked" })
        else plookup st.packets k) ∧
      (∃ e suffix, r.state.log = st.log ++ e :: suffix ∧
        entryProj e = (some pid, some "failed", some agent, some reason) ∧
        suffix.map entryProj = blocked.map (blockedProj pid)) := by
  have hone := appendLog_spec ctx
    { st with packets := updatePacket st.packets pid { pkt with status := some "failed", completed_at := some ctx.now, notes := some reason } }
    pid "failed" (some agent) (some reason)
  obtain ⟨hpk2, e, he, hpe⟩ := hone
  -- lookups in the post-fail, pre-cascade state
  have hl2 : plookup (appendLog ctx
      { st with packets := updatePacket st.packets pid { pkt with status := some "failed", completed_at := some ctx.now, notes := some reason } }
      pid "failed" (some agent) (some reason)).packets pid =
      some { pkt with status := some "failed", completed_at := some ctx.now, notes := some reason } := by
    rw [hpk2]
    exact plookup_updatePacket_self st.packets pid _ (by rw [hpkt]; rfl)
  have hlne : ∀ k, k ≠ pid → plookup (appendLog ctx
      { st with packets := updatePacket st.packets pid { pkt with status := some "failed", completed_at := some ctx.now, notes := some reason } }
      pid "failed" (some agent) (some reason)).packets k = plookup st.packets k := by
    intro k hk
    rw [hpk2]
    exact plookup_updatePacket_ne st.packets pid k _ hk
  have hne : ∀ k, k ≠ pid → packetStatusIn (appendLog ctx
      { st with packets := updatePacket st.packets pid { pkt with status := some "failed", completed_at := some ctx.now, notes := some reason } }
      pid "failed" (some agent) (some reason)) k = packetStatusIn st k := by
    intro k hk
    unfold packetStatusIn
    rw [hlne k hk]
  have hsfailed : packetStatusIn (appendLog ctx
      { st with packets := updatePacket st.packets pid { pkt with status := some "failed", completed_at := some ctx.now, notes := some reason } }
      pid "failed" (some agent) (some reason)) pid = "failed" := by
    unfold packetStatusIn
    rw [hl2]
    show GovStatus.normalize_runtime_status (some "failed") = "failed"
    decide
  have horig : ¬ activeIn (appendLog ctx
      { st with packets := updatePacket st.packets pid { pkt with status := some "failed", completed_at := some ctx.now, notes := some reason } }
      pid "failed" (some agent) (some reason)) pid := by
    intro h
    unfold activeIn at h
    rw [hsfailed] at h
    rcases h with h | h
    · exact absurd h (by decide)
    · exact absurd h (by decide)
  -- run the cascade master lemma from the pre-cascade state
  obtain ⟨s3, acc2, hgo, hiff, hst, hlog3⟩ :=
    cascade_master ctx defn pid _
      (by
        intro k hk
        rw [hpk2]
        by_cases hkp : k = pid
        · subst hkp
          rw [plookup_updatePacket_self st.packets k _ (by rw [hpkt]; rfl)]
          rfl
        · rw [plookup_updatePacket_ne st.packets pid k _ hkp]
          exact hkeys k hk)
      fuel _ (dependents defn pid) []
      (fun x hx => dependents_subset_keys hx)
      (fun a ha => absurd ha (List.not_mem_nil a))
      (fun a ha => absurd ha (List.not_mem_nil a))
      (fun k => by rw [if_neg (List.not_mem_nil k)])
      ⟨[], (List.append_nil _).symm, rfl⟩
      (fun q hr => Or.inr hr)
      (fun x hx => Or.inl hx)
      (by
        have hsum := activeDepsSum_update defn st.packets pid pkt
          { pkt with status := some "failed", completed_at := some ctx.now, notes := some reason } hpkt hstatus
          (by
            show ¬(GovStatus.normalize_runtime_status (some "failed") = "pending" ∨
              GovStatus.normalize_runtime_status (some "failed") = "in_progress")
            decide)
        show (dependents defn pid).length + activeDepsSum defn
          (updatePacket st.packets pid
            { pkt with status := some "failed", completed_at := some ctx.now, notes := some reason }) + 1 ≤ fuel
        omega)
  have hpidacc : pid ∉ acc2 := by
    intro h
    obtain ⟨x, hx, ch⟩ := (hiff pid).mp h
    exact cascade_chain_end_ne (chain_avoid_to_cascade hne horig ch) rfl
  refine ⟨⟨true, pid ++ " failed" ++
    (if acc2 ≠ [] then "; blocked: " ++ joinSep ", " acc2 else ""), s3, []⟩,
    acc2, ?_, rfl, ?_, ?_, ?_, ?_⟩
  · unfold fail
    dsimp only
    rw [hap]
    rw [if_neg (by decide)]
    rw [hpkt]
    dsimp only
    rw [if_neg (not_not_intro hstatus)]
    rw [if_neg (by simp [hhand])]
    rw [hgo]
  · intro q
    constructor
    · intro hq
      obtain ⟨x, hx, ch⟩ := (hiff q).mp hq
      exact ⟨x, hx, chain_avoid_to_cascade hne horig ch⟩
    · intro hq
      obtain ⟨x, hx, cc⟩ := hq
      exact (hiff q).mpr ⟨x, hx, cascade_to_chain_avoid hne cc⟩
  · show plookup s3.packets pid = _
    rw [hst pid, if_neg hpidacc, hl2]
  · intro k hk
    show plookup s3.packets k = _
    rw [hst k, hlne k hk]
  · obtain ⟨suffix, hsfx, hproj⟩ := hlog3
    refine ⟨e, suffix, ?_, hpe, hproj⟩
    show s3.log = st.log ++ e :: suffix
    rw [hsfx, he]
    show ({ st with packets := updatePacket st.packets pid { pkt with status := some "failed", completed_at := some ctx.now, notes := some reason } } : State).log ++ [e] ++ suffix =
      st.log ++ e :: suffix
    rw [List.append_assoc, List.singleton_append]

end Engine

namespace Engine

theorem c4_cascade_characterization_witness :
    ∃ (r : EngineResult) (blocked : List String),
      fail exampleCtx exampleDefnC4 exampleStateC4 "P" "alice" "broke" 10 = some r ∧
      r.ok = true ∧
      (∀ q, q ∈ blocked ↔ cascadeReach exampleDefnC4 exampleStateC4 "P" q) ∧
      plookup r.state.packets "P" =
        some { packetInProgressAlice with status := some "failed", completed_at := some exampleCtx.now, notes := some "broke" } ∧
      (∀ k, k ≠ "P" → plookup r.state.packets k =
        if k ∈ blocked then
          (plookup exampleStateC4.packets k).map (fun p => { p with status := some "blocked" })
        else plookup exampleStateC4.packets k) ∧
      (∃ e suffix, r.state.log = exampleStateC4.log ++ e :: suffix ∧
        entryProj e = (some "P", some "failed", some "alice", some "broke") ∧
        suffix.map entryProj = blocked.map (blockedProj "P")) :=
  c4_cascade_characterization exampleCtx exampleDefnC4 exampleStateC4 "P" "alice" "broke" 10
    packetInProgressAlice (by decide) (by decide) (by decide) (by decide)
    (by intro k hk; fin_cases hk <;> decide) (by decide)

end Engine

namespace CanonicalJson

theorem char_eq_of_toNat {c1 c2 : Char} (h : c1.toNat = c2.toNat) : c1 = c2 := by
  have h1 := Char.ofNat_toNat c1
  rw [← h1, h, Char.ofNat_toNat]

theorem digChar_toNat {d : Nat} (h : d < 10) : (digChar d).toNat = 48 + d := by
  interval_cases d <;> decide

theorem digChar_digit (m : Nat) : isDigitC (digChar m) = true := by
  unfold digChar
  repeat' split
  all_goals decide

theorem digitsVal_append (l : List Char) (c : Char) :
    digitsVal (l ++ [c]) = digitsVal l * 10 + (c.toNat - 48) := by
  simp [digitsVal, List.foldl_append]

theorem natDigs_val : ∀ fuel n, n ≤ fuel → digitsVal (natDigs fuel n) = n := by
  intro fuel
  induction fuel with
  | zero =>
    intro n hn
    have : n = 0 := by omega
    subst this
    rfl
  | succ fuel ih =>
    intro n hn
    unfold natDigs
    by_cases h0 : n = 0
    · subst h0
      rfl
    · rw [if_neg h0, digitsVal_append, ih (n / 10) (by
        have := Nat.div_lt_self (by omega : 0 < n) (by omega : 1 < 10)
        omega)]
      rw [digChar_toNat (Nat.mod_lt n (by omega))]
      have := Nat.div_add_mod n 10
      omega

theorem natChars_val (n : Nat) : digitsVal (natChars n) = n := by
  unfold natChars
  by_cases h0 : n = 0
  · subst h0; rfl
  · rw [if_neg h0]
    exact natDigs_val (n + 1) n (by omega)

theorem natChars_inj {a b : Nat} (h : natChars a = natChars b) : a = b := by
  have := congrArg digitsVal h
  rwa [natChars_val, natChars_val] at this

theorem natDigs_digits : ∀ fuel n c, c ∈ natDigs fuel n → isDigitC c = true := by
  intro fuel
  induction fuel with
  | zero => intro n c h; exact absurd h (List.not_mem_nil c)
  | succ fuel ih =>
    intro n c h
    unfold natDigs at h
    by_cases h0 : n = 0
    · rw [if_pos h0] at h
      exact absurd h (List.not_mem_nil c)
    · rw [if_neg h0] at h
      rcases List.mem_append.mp h with h1 | h1
      · exact ih (n / 10) c h1
      · rw [List.mem_singleton.mp h1]
        exact digChar_digit (n % 10)

theorem natChars_digits (n : Nat) : ∀ c, c ∈ natChars n → isDigitC c = true := by
  intro c h
  unfold natChars at h
  by_cases h0 : n = 0
  · rw [if_pos h0, List.mem_singleton.mp h] at *
    decide
  · rw [if_neg h0] at h
    exact natDigs_digits (n + 1) n c h

theorem natChars_ne_nil (n : Nat) : natChars n ≠ [] := by
  unfold natChars
  by_cases h0 : n = 0
  · rw [if_pos h0]; simp
  · rw [if_neg h0]
    show natDigs (n + 1) n ≠ []
    unfold natDigs
    rw [if_neg h0]
    simp

theorem natChars_head (n : Nat) : ∃ c t, natChars n = c :: t ∧ isDigitC c = true := by
  cases h : natChars n with
  | nil => exact absurd h (natChars_ne_nil n)
  | cons c t =>
    exact ⟨c, t, rfl, natChars_digits n c (by rw [h]; exact List.mem_cons_self c t)⟩

end CanonicalJson

namespace CanonicalJson

theorem digitRun : ∀ (s1 : List Char) (s2 r1 r2 : List Char),
    (∀ c ∈ s1, isDigitC c = true) → (∀ c ∈ s2, isDigitC c = true) →
    headOkB r1 = true → headOkB r2 = true →
    s1 ++ r1 = s2 ++ r2 → s1 = s2 ∧ r1 = r2 := by
  intro s1
  induction s1 with
  | nil =>
    intro s2 r1 r2 hd1 hd2 hk1 hk2 heq
    cases s2 with
    | nil => exact ⟨rfl, heq⟩
    | cons c t =>
      simp only [List.nil_append, List.cons_append] at heq
      rw [heq] at hk1
      have hk1x : (!(isDigitC c)) = true := hk1
      rw [hd2 c (List.mem_cons_self c t)] at hk1x
      simp at hk1x
  | cons c t ih =>
    intro s2 r1 r2 hd1 hd2 hk1 hk2 heq
    cases s2 with
    | nil =>
      simp only [List.nil_append, List.cons_append] at heq
      rw [← heq] at hk2
      have hk2x : (!(isDigitC c)) = true := hk2
      rw [hd1 c (List.mem_cons_self c t)] at hk2x
      simp at hk2x
    | cons c2 t2 =>
      simp only [List.cons_append, List.cons.injEq] at heq
      obtain ⟨hc, hrest⟩ := heq
      obtain ⟨h1, h2⟩ := ih t2 r1 r2 (fun x hx => hd1 x (List.mem_cons_of_mem c hx))
        (fun x hx => hd2 x (List.mem_cons_of_mem c2 hx)) hk1 hk2 hrest
      exact ⟨by rw [hc, h1], h2⟩

theorem intRepr_inj {a b : Int} {r1 r2 : List Char}
    (heq : intReprChars a ++ r1 = intReprChars b ++ r2)
    (hk1 : headOkB r1 = true) (hk2 : headOkB r2 = true) : a = b ∧ r1 = r2 := by
  cases a with
  | ofNat m =>
    cases b with
    | ofNat k =>
      obtain ⟨h1, h2⟩ := digitRun (natChars m) (natChars k) r1 r2
        (natChars_digits m) (natChars_digits k) hk1 hk2 heq
      exact ⟨by rw [natChars_inj h1], h2⟩
    | negSucc k =>
      obtain ⟨c, t, hct, hdig⟩ := natChars_head m
      unfold intReprChars at heq
      dsimp only at heq
      rw [hct] at heq
      simp only [List.cons_append, List.cons.injEq] at heq
      rw [heq.1] at hdig
      simp [isDigitC] at hdig
  | negSucc m =>
    cases b with
    | ofNat k =>
      obtain ⟨c, t, hct, hdig⟩ := natChars_head k
      unfold intReprChars at heq
      dsimp only at heq
      rw [hct] at heq
      simp only [List.cons_append, List.cons.injEq] at heq
      rw [← heq.1] at hdig
      simp [isDigitC] at hdig
    | negSucc k =>
      unfold intReprChars at heq
      dsimp only at heq
      simp only [List.cons_append, List.cons.injEq] at heq
      obtain ⟨h1, h2⟩ := digitRun (natChars (m + 1)) (natChars (k + 1)) r1 r2
        (natChars_digits (m + 1)) (natChars_digits (k + 1)) hk1 hk2 heq.2
      have : m = k := by
        have := natChars_inj h1
        omega
      exact ⟨by rw [this], h2⟩

end CanonicalJson

namespace CanonicalJson

theorem hexVal_hexDig {m : Nat} (h : m < 16) : hexVal (hexDig m) = m := by
  interval_cases m <;> decide

set_option maxHeartbeats 2000000 in
theorem unesc_escape (c : Char) (t : List Char) :
    unesc (escapeChar c ++ t) = some (c, t) := by
  unfold escapeChar
  split_ifs with h1 h2 h3 h4 h5 h6 h7 h8
  · subst h1; rfl
  · subst h2; rfl
  · rw [show (8 : Nat) = Char.toNat (Char.ofNat 8) from rfl] at h4
    rw [char_eq_of_toNat h4]
    rfl
  · rw [show (9 : Nat) = Char.toNat (Char.ofNat 9) from rfl] at h5
    rw [char_eq_of_toNat h5]
    rfl
  · rw [show (10 : Nat) = Char.toNat (Char.ofNat 10) from rfl] at h6
    rw [char_eq_of_toNat h6]
    rfl
  · rw [show (12 : Nat) = Char.toNat (Char.ofNat 12) from rfl] at h7
    rw [char_eq_of_toNat h7]
    rfl
  · rw [show (13 : Nat) = Char.toNat (Char.ofNat 13) from rfl] at h8
    rw [char_eq_of_toNat h8]
    rfl
  · show some (Char.ofNat (hexVal (hexDig (c.toNat / 16)) * 16 +
        hexVal (hexDig (c.toNat % 16))), t) = some (c, t)
    rw [hexVal_hexDig (by omega : c.toNat / 16 < 16),
      hexVal_hexDig (Nat.mod_lt _ (by omega))]
    have hdm : c.toNat / 16 * 16 + c.toNat % 16 = c.toNat := by omega
    rw [hdm, Char.ofNat_toNat]
  · unfold unesc
    split <;> simp_all

end CanonicalJson

namespace CanonicalJson

theorem escapeChar_step_inj {c1 c2 : Char} {t1 t2 : List Char}
    (h : escapeChar c1 ++ t1 = escapeChar c2 ++ t2) : c1 = c2 ∧ t1 = t2 := by
  have h1 := unesc_escape c1 t1
  have h2 := unesc_escape c2 t2
  rw [h, h2] at h1
  simp only [Option.some.injEq, Prod.mk.injEq] at h1
  exact ⟨h1.1.symm, h1.2.symm⟩

theorem escapeChar_head (c : Char) :
    ∃ h t0, escapeChar c = h :: t0 ∧ h ≠ '"' := by
  unfold escapeChar
  split_ifs with h1 h2 h3 h4 h5 h6 h7 h8
  · exact ⟨'\\', _, rfl, by decide⟩
  · exact ⟨'\\', _, rfl, by decide⟩
  · exact ⟨'\\', _, rfl, by decide⟩
  · exact ⟨'\\', _, rfl, by decide⟩
  · exact ⟨'\\', _, rfl, by decide⟩
  · exact ⟨'\\', _, rfl, by decide⟩
  · exact ⟨'\\', _, rfl, by decide⟩
  · exact ⟨'\\', _, rfl, by decide⟩
  · exact ⟨c, [], rfl, h2⟩

theorem escapeStr_inj : ∀ (s1 : List Char) (s2 r1 r2 : List Char),
    escapeStr s1 ++ '"' :: r1 = escapeStr s2 ++ '"' :: r2 →
    s1 = s2 ∧ r1 = r2 := by
  intro s1
  induction s1 with
  | nil =>
    intro s2 r1 r2 heq
    cases s2 with
    | nil =>
      simp only [escapeStr, List.nil_append, List.cons.injEq] at heq
      exact ⟨rfl, heq.2⟩
    | cons c t =>
      obtain ⟨h, t0, hct, hne⟩ := escapeChar_head c
      simp only [escapeStr, List.nil_append, List.append_assoc, hct,
        List.cons_append, List.cons.injEq] at heq
      exact absurd heq.1.symm hne
  | cons c1 t1 ih =>
    intro s2 r1 r2 heq
    cases s2 with
    | nil =>
      obtain ⟨h, t0, hct, hne⟩ := escapeChar_head c1
      simp only [escapeStr, List.nil_append, List.append_assoc, hct,
        List.cons_append, List.cons.injEq] at heq
      exact absurd heq.1 hne
    | cons c2 t2 =>
      simp only [escapeStr, List.append_assoc] at heq
      obtain ⟨hc, ht⟩ := escapeChar_step_inj heq
      obtain ⟨h1, h2⟩ := ih t2 r1 r2 ht
      exact ⟨by rw [hc, h1], h2⟩

theorem emitStr_inj {s1 s2 r1 r2 : List Char}
    (heq : emitStr s1 ++ r1 = emitStr s2 ++ r2) : s1 = s2 ∧ r1 = r2 := by
  unfold emitStr at heq
  simp only [List.cons_append, List.append_assoc, List.singleton_append,
    List.cons.injEq] at heq
  exact escapeStr_inj s1 s2 r1 r2 heq.2

end CanonicalJson

namespace CanonicalJson

theorem ctag_le (v : NVal) : ctag v ≤ 5 := by
  cases v <;> simp [ctag]

theorem charTag_digit {c : Char} (h : isDigitC c = true) : charTag c = 2 := by
  have hle : c.toNat ≤ 57 := by
    unfold isDigitC at h
    simp only [Bool.and_eq_true, decide_eq_true_eq] at h
    exact h.2
  unfold charTag
  rw [if_neg (by intro he; rw [he] at hle; exact absurd hle (by decide) : ¬c = 'n'),
    if_neg (by intro he; rw [he] at hle; exact absurd hle (by decide) : ¬c = 't'),
    if_neg (by intro he; rw [he] at hle; exact absurd hle (by decide) : ¬c = 'f'),
    if_pos h]

theorem emit_head_tag (v : NVal) :
    ∃ c t, emitVal v = c :: t ∧ charTag c = ctag v := by
  cases v with
  | nnull => exact ⟨'n', _, rfl, by decide⟩
  | nbool b => cases b with
    | true => exact ⟨'t', _, rfl, by decide⟩
    | false => exact ⟨'f', _, rfl, by decide⟩
  | nint n =>
    cases n with
    | ofNat m =>
      obtain ⟨c, t, hct, hd⟩ := natChars_head m
      exact ⟨c, t, hct, by rw [charTag_digit hd]; rfl⟩
    | negSucc m => exact ⟨'-', _, rfl, rfl⟩
  | nstr s => exact ⟨'"', _, rfl, rfl⟩
  | narr xs => cases xs with
    | nil => exact ⟨'[', _, rfl, rfl⟩
    | cons x t => exact ⟨'[', _, rfl, rfl⟩
  | nobj kvs => cases kvs with
    | nil => exact ⟨'\x7b', _, rfl, rfl⟩
    | cons p ps => exact ⟨'\x7b', _, rfl, rfl⟩

theorem arrTail_headOk (l : List NVal) (r : List Char) :
    headOkB (emitArrTail l ++ ']' :: r) = true := by
  cases l <;> rfl

theorem objTail_headOk (m : List (List Char × NVal)) (r : List Char) :
    headOkB (emitObjTail m ++ '\x7d' :: r) = true := by
  cases m <;> rfl

end CanonicalJson

namespace CanonicalJson

theorem emit_inj_N : ∀ N : Nat,
    (∀ v1 v2 : NVal, ∀ r1 r2 : List Char, sizeOf v1 ≤ N →
      headOkB r1 = true → headOkB r2 = true →
      emitVal v1 ++ r1 = emitVal v2 ++ r2 → v1 = v2 ∧ r1 = r2) ∧
    (∀ l1 l2 : List NVal, ∀ r1 r2 : List Char, sizeOf l1 ≤ N →
      emitArrTail l1 ++ ']' :: r1 = emitArrTail l2 ++ ']' :: r2 →
      l1 = l2 ∧ r1 = r2) ∧
    (∀ m1 m2 : List (List Char × NVal), ∀ r1 r2 : List Char, sizeOf m1 ≤ N →
      emitObjTail m1 ++ '\x7d' :: r1 = emitObjTail m2 ++ '\x7d' :: r2 →
      m1 = m2 ∧ r1 = r2) := by
  intro N
  induction N using Nat.strong_induction_on with
  | _ N ih =>
  refine ⟨?_, ?_, ?_⟩
  · -- values
    intro v1 v2 r1 r2 hsz hk1 hk2 heq
    have htag : ctag v1 = ctag v2 := by
      obtain ⟨c1, t1, he1, ht1⟩ := emit_head_tag v1
      obtain ⟨c2, t2, he2, ht2⟩ := emit_head_tag v2
      rw [he1, he2] at heq
      simp only [List.cons_append, List.cons.injEq] at heq
      rw [← ht1, ← ht2, heq.1]
    cases v1 <;> cases v2 <;> try (exfalso; simp only [ctag] at htag; omega)
    · -- nnull
      simp only [emitVal, List.cons_append, List.nil_append, List.cons.injEq,
        true_and] at heq
      exact ⟨rfl, heq⟩
    · -- nbool
      rename_i b1 b2
      cases b1 <;> cases b2 <;>
        simp only [emitVal, List.cons_append, List.nil_append,
          List.cons.injEq, true_and] at heq
      · exact ⟨rfl, heq⟩
      · exact absurd heq.1 (by decide)
      · exact absurd heq.1 (by decide)
      · exact ⟨rfl, heq⟩
    · -- nint
      rename_i n1 n2
      obtain ⟨h1, h2⟩ := intRepr_inj heq hk1 hk2
      exact ⟨by rw [h1], h2⟩
    · -- nstr
      rename_i s1 s2
      obtain ⟨h1, h2⟩ := emitStr_inj heq
      exact ⟨by rw [h1], h2⟩
    · -- narr
      rename_i l1 l2
      cases l1 with
      | nil =>
        cases l2 with
        | nil =>
          simp only [emitVal, List.cons_append, List.nil_append,
            List.cons.injEq, true_and] at heq
          exact ⟨rfl, heq⟩
        | cons x2 xs2 =>
          exfalso
          obtain ⟨c, t, hct, htg⟩ := emit_head_tag x2
          simp only [emitVal, List.cons_append, List.append_assoc,
            List.singleton_append, List.cons.injEq, true_and, hct] at heq
          rw [← heq.1] at htg
          rw [show charTag ']' = 9 from by decide] at htg
          have := ctag_le x2
          omega
      | cons x1 xs1 =>
        cases l2 with
        | nil =>
          exfalso
          obtain ⟨c, t, hct, htg⟩ := emit_head_tag x1
          simp only [emitVal, List.cons_append, List.append_assoc,
            List.singleton_append, List.cons.injEq, true_and, hct] at heq
          rw [heq.1] at htg
          rw [show charTag ']' = 9 from by decide] at htg
          have := ctag_le x1
          omega
        | cons x2 xs2 =>
          simp only [emitVal, List.cons_append, List.append_assoc,
            List.singleton_append, List.cons.injEq, true_and] at heq
          simp only [List.cons.sizeOf_spec, NVal.narr.sizeOf_spec] at hsz
          obtain ⟨hx, hrest⟩ := (ih (N - 1) (by omega)).1 x1 x2 _ _ (by omega)
            (arrTail_headOk xs1 r1) (arrTail_headOk xs2 r2) heq
          obtain ⟨hxs, hr⟩ := (ih (N - 1) (by omega)).2.1 xs1 xs2 r1 r2
            (by omega) hrest
          exact ⟨by rw [hx, hxs], hr⟩
    · -- nobj
      rename_i m1 m2
      cases m1 with
      | nil =>
        cases m2 with
        | nil =>
          simp only [emitVal, List.cons_append, List.nil_append,
            List.cons.injEq, true_and] at heq
          exact ⟨rfl, heq⟩
        | cons p2 ps2 =>
          exfalso
          obtain ⟨k2, v2⟩ := p2
          simp only [emitVal, emitMember, List.cons_append, List.append_assoc,
            List.singleton_append, List.cons.injEq, true_and, emitStr] at heq
          exact absurd heq.1 (by decide)
      | cons p1 ps1 =>
        cases m2 with
        | nil =>
          exfalso
          obtain ⟨k1, v1⟩ := p1
          simp only [emitVal, emitMember, List.cons_append, List.append_assoc,
            List.singleton_append, List.cons.injEq, true_and, emitStr] at heq
          exact absurd heq.1 (by decide)
        | cons p2 ps2 =>
          obtain ⟨k1, w1⟩ := p1
          obtain ⟨k2, w2⟩ := p2
          simp only [emitVal, emitMember, List.cons_append, List.append_assoc,
            List.singleton_append, List.cons.injEq, true_and] at heq
          simp only [List.cons.sizeOf_spec, NVal.nobj.sizeOf_spec,
            Prod.mk.sizeOf_spec] at hsz
          obtain ⟨hk, hrest⟩ := emitStr_inj heq
          simp only [List.cons.injEq, true_and] at hrest
          obtain ⟨hw, hrest2⟩ := (ih (N - 1) (by omega)).1 w1 w2 _ _ (by omega)
            (objTail_headOk ps1 r1) (objTail_headOk ps2 r2) hrest
          obtain ⟨hps, hr⟩ := (ih (N - 1) (by omega)).2.2 ps1 ps2 r1 r2
            (by omega) hrest2
          exact ⟨by rw [hk, hw, hps], hr⟩
  · -- array tails
    intro l1 l2 r1 r2 hsz heq
    cases l1 with
    | nil =>
      cases l2 with
      | nil =>
        simp only [emitArrTail, List.nil_append, List.cons.injEq, true_and] at heq
        exact ⟨rfl, heq⟩
      | cons x2 xs2 =>
        simp only [emitArrTail, List.nil_append, List.cons_append,
          List.cons.injEq] at heq
        exact absurd heq.1 (by decide)
    | cons x1 xs1 =>
      cases l2 with
      | nil =>
        simp only [emitArrTail, List.nil_append, List.cons_append,
          List.cons.injEq] at heq
        exact absurd heq.1 (by decide)
      | cons x2 xs2 =>
        simp only [emitArrTail, List.cons_append, List.append_assoc,
          List.cons.injEq, true_and] at heq
        simp only [List.cons.sizeOf_spec] at hsz
        obtain ⟨hx, hrest⟩ := (ih (N - 1) (by omega)).1 x1 x2 _ _ (by omega)
          (arrTail_headOk xs1 r1) (arrTail_headOk xs2 r2) heq
        obtain ⟨hxs, hr⟩ := (ih (N - 1) (by omega)).2.1 xs1 xs2 r1 r2
          (by omega) hrest
        exact ⟨by rw [hx, hxs], hr⟩
  · -- object tails
    intro m1 m2 r1 r2 hsz heq
    cases m1 with
    | nil =>
      cases m2 with
      | nil =>
        simp only [emitObjTail, List.nil_append, List.cons.injEq, true_and] at heq
        exact ⟨rfl, heq⟩
      | cons p2 ps2 =>
        obtain ⟨k2, w2⟩ := p2
        simp only [emitObjTail, emitMember, List.nil_append, List.cons_append,
          List.append_assoc, List.cons.injEq, emitStr] at heq
        exact absurd heq.1 (by decide)
    | cons p1 ps1 =>
      cases m2 with
      | nil =>
        obtain ⟨k1, w1⟩ := p1
        simp only [emitObjTail, emitMember, List.nil_append, List.cons_append,
          List.append_assoc, List.cons.injEq, emitStr] at heq
        exact absurd heq.1 (by decide)
      | cons p2 ps2 =>
        obtain ⟨k1, w1⟩ := p1
        obtain ⟨k2, w2⟩ := p2
        simp only [emitObjTail, emitMember, List.cons_append, List.append_assoc,
          List.cons.injEq, true_and] at heq
        simp only [List.cons.sizeOf_spec, Prod.mk.sizeOf_spec] at hsz
        obtain ⟨hk, hrest⟩ := emitStr_inj heq
        simp only [List.cons.injEq, true_and] at hrest
        obtain ⟨hw, hrest2⟩ := (ih (N - 1) (by omega)).1 w1 w2 _ _ (by omega)
          (objTail_headOk ps1 r1) (objTail_headOk ps2 r2) hrest
        obtain ⟨hps, hr⟩ := (ih (N - 1) (by omega)).2.2 ps1 ps2 r1 r2
          (by omega) hrest2
        exact ⟨by rw [hk, hw, hps], hr⟩

end CanonicalJson

namespace CanonicalJson

theorem emitVal_injective {a b : NVal} (h : emitVal a = emitVal b) : a = b :=
  ((emit_inj_N (sizeOf a)).1 a b [] [] (le_refl _) rfl rfl
    (by rw [List.append_nil, List.append_nil, h])).1

theorem lexLe_total : ∀ a b : List Char, lexLe a b = true ∨ lexLe b a = true := by
  intro a
  induction a with
  | nil => intro b; exact Or.inl rfl
  | cons c t ih =>
    intro b
    cases b with
    | nil => exact Or.inr rfl
    | cons c2 t2 =>
      unfold lexLe
      rcases Nat.lt_trichotomy c.toNat c2.toNat with h | h | h
      · left; rw [if_pos h]
      · rw [if_neg (by omega), if_neg (by omega), if_neg (by omega),
          if_neg (by omega)]
        exact ih t2
      · right; rw [if_pos h]

theorem lexLe_antisymm : ∀ a b : List Char,
    lexLe a b = true → lexLe b a = true → a = b := by
  intro a
  induction a with
  | nil =>
    intro b h1 h2
    cases b with
    | nil => rfl
    | cons c2 t2 => exact absurd h2 (by simp [lexLe])
  | cons c t ih =>
    intro b h1 h2
    cases b with
    | nil => exact absurd h1 (by simp [lexLe])
    | cons c2 t2 =>
      unfold lexLe at h1 h2
      rcases Nat.lt_trichotomy c.toNat c2.toNat with h | h | h
      · rw [if_neg (by omega), if_pos h] at h2
        exact absurd h2 (by simp)
      · rw [if_neg (by omega), if_neg (by omega)] at h1 h2
        rw [char_eq_of_toNat h, ih t2 h1 h2]
      · rw [if_neg (by omega), if_pos h] at h1
        exact absurd h1 (by simp)

theorem lexLe_trans : ∀ a b c : List Char,
    lexLe a b = true → lexLe b c = true → lexLe a c = true := by
  intro a
  induction a with
  | nil => intro b c h1 h2; rfl
  | cons x t ih =>
    intro b c h1 h2
    cases b with
    | nil => exact absurd h1 (by simp [lexLe])
    | cons y t2 =>
      cases c with
      | nil => exact absurd h2 (by simp [lexLe])
      | cons z t3 =>
        unfold lexLe at h1 h2 ⊢
        rcases Nat.lt_trichotomy x.toNat y.toNat with hxy | hxy | hxy <;>
          rcases Nat.lt_trichotomy y.toNat z.toNat with hyz | hyz | hyz
        · rw [if_pos (by omega)]
        · rw [if_pos (by omega)]
        · rw [if_neg (by omega), if_pos hyz] at h2
          exact absurd h2 (by simp)
        · rw [if_pos (by omega)]
        · rw [if_neg (by omega), if_neg (by omega)] at h1 h2 ⊢
          exact ih t2 t3 h1 h2
        · rw [if_neg (by omega), if_pos hyz] at h2
          exact absurd h2 (by simp)
        · rw [if_neg (by omega), if_pos hxy] at h1
          exact absurd h1 (by simp)
        · rw [if_neg (by omega), if_pos hxy] at h1
          exact absurd h1 (by simp)
        · rw [if_neg (by omega), if_pos hxy] at h1
          exact absurd h1 (by simp)

end CanonicalJson

namespace CanonicalJson

theorem insertPair_perm (p : List Char × NVal) :
    ∀ l, (insertPair p l).Perm (p :: l) := by
  intro l
  induction l with
  | nil => exact List.Perm.refl _
  | cons q qs ih =>
    unfold insertPair
    by_cases h : lexLe p.1 q.1 = true
    · rw [if_pos h]
    · rw [if_neg h]
      exact (List.Perm.cons q ih).trans (List.Perm.swap p q qs)

theorem sortPairs_perm : ∀ l, (sortPairs l).Perm l := by
  intro l
  induction l with
  | nil => exact List.Perm.refl _
  | cons p ps ih =>
    exact (insertPair_perm p (sortPairs ps)).trans (List.Perm.cons p ih)

theorem insertPair_pairwise (p : List Char × NVal) :
    ∀ l, List.Pairwise (fun a b => lexLe a.1 b.1 = true) l →
      List.Pairwise (fun a b => lexLe a.1 b.1 = true) (insertPair p l) := by
  intro l
  induction l with
  | nil => intro _; exact List.pairwise_singleton _ p
  | cons q qs ih =>
    intro hp
    rw [List.pairwise_cons] at hp
    obtain ⟨hq, hqs⟩ := hp
    unfold insertPair
    by_cases h : lexLe p.1 q.1 = true
    · rw [if_pos h]
      rw [List.pairwise_cons]
      refine ⟨?_, by rw [List.pairwise_cons]; exact ⟨hq, hqs⟩⟩
      intro b hb
      rcases List.mem_cons.mp hb with hb | hb
      · rw [hb]; exact h
      · exact lexLe_trans p.1 q.1 b.1 h (hq b hb)
    · rw [if_neg h]
      rw [List.pairwise_cons]
      refine ⟨?_, ih hqs⟩
      intro b hb
      have := (insertPair_perm p qs).mem_iff.mp hb
      rcases List.mem_cons.mp this with hb2 | hb2
      · rw [hb2]
        rcases lexLe_total p.1 q.1 with h1 | h1
        · exact absurd h1 h
        · exact h1
      · exact hq b hb2

theorem sortPairs_pairwise : ∀ l,
    List.Pairwise (fun a b => lexLe a.1 b.1 = true) (sortPairs l) := by
  intro l
  induction l with
  | nil => exact List.Pairwise.nil
  | cons p ps ih => exact insertPair_pairwise p (sortPairs ps) ih

theorem pairwise_perm_nodupkeys_eq :
    ∀ (l1 l2 : List (List Char × NVal)), l1.Perm l2 →
      List.Pairwise (fun a b => lexLe a.1 b.1 = true) l1 →
      List.Pairwise (fun a b => lexLe a.1 b.1 = true) l2 →
      (l1.map Prod.fst).Nodup → l1 = l2 := by
  intro l1
  induction l1 with
  | nil => intro l2 hperm _ _ _; exact List.Perm.nil_eq hperm
  | cons p t1 ih =>
    intro l2 hperm hs1 hs2 hnd
    cases l2 with
    | nil => exact absurd hperm.symm (by simp)
    | cons q t2 =>
      rw [List.pairwise_cons] at hs1 hs2
      by_cases hpq : p = q
      · subst hpq
        rw [ih t2 (List.Perm.cons_inv hperm) hs1.2 hs2.2
          (by simp only [List.map_cons, List.nodup_cons] at hnd; exact hnd.2)]
      · exfalso
        have hpmem : p ∈ q :: t2 := hperm.mem_iff.mp (List.mem_cons_self p t1)
        have hqmem : q ∈ p :: t1 := hperm.symm.mem_iff.mp (List.mem_cons_self q t2)
        rcases List.mem_cons.mp hpmem with h1 | h1
        · exact hpq h1
        rcases List.mem_cons.mp hqmem with h2 | h2
        · exact hpq h2.symm
        have hle1 : lexLe p.1 q.1 = true := hs1.1 q h2
        have hle2 : lexLe q.1 p.1 = true := hs2.1 p h1
        have hkey : p.1 = q.1 := lexLe_antisymm p.1 q.1 hle1 hle2
        simp only [List.map_cons, List.nodup_cons] at hnd
        exact hnd.1 (by rw [hkey]; exact List.mem_map_of_mem Prod.fst h2)

theorem sortPairs_perm_eq {l1 l2 : List (List Char × NVal)}
    (hperm : l1.Perm l2) (hnd : (l1.map Prod.fst).Nodup) :
    sortPairs l1 = sortPairs l2 := by
  refine pairwise_perm_nodupkeys_eq _ _ ?_ (sortPairs_pairwise l1) (sortPairs_pairwise l2) ?_
  · exact (sortPairs_perm l1).trans (hperm.trans (sortPairs_perm l2).symm)
  · exact (((sortPairs_perm l1).map Prod.fst).nodup_iff).mpr hnd

end CanonicalJson

namespace CanonicalJson

theorem sortNormPairs_normPairs {D : Type} (dtNorm : D → List Char) :
    ∀ kvs : List (List Char × JVal D),
      sortNormPairs (normPairs dtNorm kvs) =
        kvs.map (fun kv => (kv.1, sortNorm (_normalize dtNorm kv.2))) := by
  intro kvs
  induction kvs with
  | nil => rfl
  | cons kv rest ih =>
    obtain ⟨k, v⟩ := kv
    simp only [normPairs, sortNormPairs, List.map_cons, ih]

/-- C8: canonical JSON determinism (P4). Over the embedded value domain
(None, bool, int, str, datetime via an arbitrary normalizer `dtNorm`,
Decimal-as-string, list, tuple, dict with string keys — floats are outside
the embedding), `canonical_json_dumps` produces equal output exactly when the
two inputs are structurally equal under the normalization rules, i.e. when
their normalized forms with keys sorted lexicographically at every nesting
level coincide; and reordering the members of a mapping (with distinct keys)
never changes the output. -/
theorem c8_canonical_json_determinism {D : Type} (dtNorm : D → List Char) :
    (∀ x y : JVal D,
      canonical_json_dumps dtNorm x = canonical_json_dumps dtNorm y ↔
        sortNorm (_normalize dtNorm x) = sortNorm (_normalize dtNorm y)) ∧
    (∀ kvs1 kvs2 : List (List Char × JVal D),
      (kvs1.map Prod.fst).Nodup → kvs1.Perm kvs2 →
      canonical_json_dumps dtNorm (.jobj kvs1) =
        canonical_json_dumps dtNorm (.jobj kvs2)) := by
  constructor
  · intro x y
    constructor
    · intro h
      exact emitVal_injective h
    · intro h
      unfold canonical_json_dumps
      rw [h]
  · intro kvs1 kvs2 hnd hperm
    show emitVal (.nobj (sortPairs (sortNormPairs (normPairs dtNorm kvs1)))) =
      emitVal (.nobj (sortPairs (sortNormPairs (normPairs dtNorm kvs2))))
    rw [sortNormPairs_normPairs, sortNormPairs_normPairs]
    rw [sortPairs_perm_eq
      (hperm.map (fun kv => (kv.1, sortNorm (_normalize dtNorm kv.2))))
      (by
        rw [List.map_map]
        exact hnd)]

theorem c8_canonical_json_determinism_witness :
    canonical_json_dumps (fun _ : Unit => [])
        (JVal.jobj [(['b'], JVal.jnull), (['a'], JVal.jint 1)]) =
      canonical_json_dumps (fun _ : Unit => [])
        (JVal.jobj [(['a'], JVal.jint 1), (['b'], JVal.jnull)]) :=
  (c8_canonical_json_determinism (fun _ : Unit => [])).2
    [(['b'], JVal.jnull), (['a'], JVal.jint 1)]
    [(['a'], JVal.jint 1), (['b'], JVal.jnull)]
    (by decide) (List.Perm.swap _ _ _)

end CanonicalJson
